import Mathlib

/-!
Verification of the WeChat chat-export extraction and reporting pipeline
(`extract-date.ts`, `analyze-wechat.ts`, `extract-from-db.ts`,
`generate-ops-report.ts`, `update-journal.ts`).

JavaScript strings are modelled as `List Char` (Unicode code points); where a
behaviour genuinely depends on UTF-16 code units (`String.length`,
`String.substring`) an explicit UTF-16 length function is used.  JS falsiness
of strings is modelled by emptiness (the scripts only rely on `''`/`undefined`
being falsy).  Regular-expression operations are modelled by specialised
scanning functions that follow the JS regex engine's leftmost-match,
greedy/lazy semantics for the concrete patterns appearing in the scripts.
-/

/-! ### Basic string utilities -/

/-- Whitespace test used to model `\s` / `String.prototype.trim` for the
character set that actually occurs in the pipeline's data. -/
def isWsChar (c : Char) : Bool :=
  c == ' ' || c == '\n' || c == '\t' || c == '\r'

/-- Model of `String.prototype.trimStart`. -/
def trimL (s : List Char) : List Char := s.dropWhile isWsChar

/-- Model of `String.prototype.trim` (drop whitespace from both ends). -/
def trimStr (s : List Char) : List Char :=
  ((s.dropWhile isWsChar).reverse.dropWhile isWsChar).reverse

/-- Model of `s.split('\n')`: split a string at every newline; like the JS
function it returns one (possibly empty) piece more than the number of
newlines. -/
def splitLines : List Char → List (List Char)
  | [] => [[]]
  | c :: r =>
    if c = '\n' then [] :: splitLines r
    else
      match splitLines r with
      | h :: t => (c :: h) :: t
      | [] => [[c]]

/-- Join lines with `'\n'` (inverse of `splitLines`). -/
def joinNL : List (List Char) → List Char
  | [] => []
  | [l] => l
  | l :: rest => l ++ '\n' :: joinNL rest

/-- Boolean list-prefix test (model of an anchored regex literal match). -/
def isPre : List Char → List Char → Bool
  | [], _ => true
  | _ :: _, [] => false
  | a :: as, b :: bs => a == b && isPre as bs

/-- Index of the first occurrence of the pattern `p` in `s`, if any
(model of `RegExp.exec` position search for a literal pattern). -/
def findTok? (p : List Char) : List Char → Option Nat
  | [] => if isPre p [] then some 0 else none
  | c :: rest =>
    if isPre p (c :: rest) then some 0
    else (findTok? p rest).map (· + 1)

/-- Model of `String.prototype.includes` for a literal pattern. -/
def hasTok (p s : List Char) : Bool := (findTok? p s).isSome

/-- `s` contains an occurrence of `opn` followed (later) by an occurrence of
`cls`: a properly-paired tag pair, stated structurally. -/
def HasPairP (opn cls s : List Char) : Prop :=
  ∃ u v w, s = u ++ opn ++ v ++ cls ++ w

/-- Decidable version of `HasPairP`: first `opn` occurrence followed by some
`cls` occurrence. -/
def hasPair (opn cls s : List Char) : Bool :=
  match findTok? opn s with
  | none => false
  | some i => hasTok cls (s.drop (i + opn.length))

/-! ### C5 — regex-based sender/content parsing

`extract-date.ts` lines 80–104 and `extract-from-db` lines 154–164 split a raw
group message with `content.match(/^([^:\n]+):\n/)`; on a match the prefix is
the sender username and the prefix, colon and newline are removed from the
content. -/

/-- One step of the scan for the first `':'`-or-`'\n'` character:
returns the index of the first such character, if any. -/
def firstStopIdx : List Char → Option Nat
  | [] => none
  | c :: rest =>
    if c == ':' || c == '\n' then some 0
    else (firstStopIdx rest).map (· + 1)

/-- Model of the sender/content split performed on each raw group message
(`const match = content.match(/^([^:\n]+):\n/); ...`).  Returns
`(senderUsername, content)`. -/
def parseSender (content : List Char) : List Char × List Char :=
  match firstStopIdx content with
  | none => ([], content)
  | some k =>
    if k = 0 then ([], content)
    else
      match content.drop k with
      | ':' :: '\n' :: rest => (content.take k, rest)
      | _ => ([], content)

/-! ### C6 — preprocessMessages (analyze-wechat.ts lines 272–294) -/

/-- The message shape consumed by `preprocessMessages` (a projection of the
`ChatMessage` interface to the fields the function reads). -/
structure ChatMessage where
  type : List Char
  content : List Char
  senderDisplayName : List Char
  formattedTime : List Char
deriving DecidableEq, Repr

/-- Model of `preprocessMessages(messages, targetDate?)`: first the
four-condition cleaning filter, then (when a target date is given) the
date-prefix filter, exactly as in the source. -/
def preprocessMessages (messages : List ChatMessage) (targetDate : Option (List Char)) :
    List ChatMessage :=
  let filtered := messages.filter (fun m =>
    if m.type == "系统消息".data || m.type == "撤回消息".data then false
    else if m.type == "动画表情".data && !(hasTok "：".data m.content) then false
    else if m.content.isEmpty || (trimStr m.content).isEmpty then false
    else if hasTok "小云雀".data m.senderDisplayName then false
    else true)
  match targetDate with
  | some d => filtered.filter (fun m => isPre d m.formattedTime)
  | none => filtered

/-- The keep-condition exactly as the claim states it: type is neither
`系统消息` nor `撤回消息`; not an `动画表情` lacking `：`; content non-empty
after trimming; display name free of `小云雀`; and, when a target date is
given, the formatted time starts with it. -/
def keepSpec (targetDate : Option (List Char)) (m : ChatMessage) : Bool :=
  !(m.type == "系统消息".data) && !(m.type == "撤回消息".data) &&
  !(m.type == "动画表情".data && !(hasTok "：".data m.content)) &&
  !((trimStr m.content).isEmpty) &&
  !(hasTok "小云雀".data m.senderDisplayName) &&
  (match targetDate with
   | some d => isPre d m.formattedTime
   | none => true)

/-! ### C1 — three-tier display-name resolution
(extract-date.ts lines 20–24, 93–115; extract-from-db lines 19–24, 166–174) -/

/-- ASCII letter test (`[a-zA-Z]`). -/
def isAlphaCh (c : Char) : Bool :=
  ('A' ≤ c && c ≤ 'Z') || ('a' ≤ c && c ≤ 'z')

/-- ASCII alphanumeric test (`[a-zA-Z0-9]`). -/
def isAlnumCh (c : Char) : Bool :=
  isAlphaCh c || ('0' ≤ c && c ≤ '9')

/-- Word-character test (`[A-Za-z0-9_]`). -/
def isWordCh (c : Char) : Bool := isAlnumCh c || c == '_'

/-- Model of `isWxidFormat` (identical in both scripts): empty strings, strings
matching `/^[Dd]?wxid_/i`, and 15-plus-character `[A-Za-z0-9_]` strings are
"wxid format" (not suitable for display). -/
def isWxidFormat (name : List Char) : Bool :=
  if name.isEmpty then true
  else
    (isPre "wxid_".data (name.map Char.toLower) ||
     isPre "dwxid_".data (name.map Char.toLower)) ||
    (15 ≤ name.length && name.all isWordCh)

/-- Anchored match of `wxid_[a-zA-Z0-9]+` at the head of a string (the core of
the username-cleaning regex `/([Dd]?wxid_[a-zA-Z0-9]+)/`, which is
case-sensitive). -/
def wxidCore (s : List Char) : Option (List Char) :=
  if isPre "wxid_".data s then
    let run := (s.drop 5).takeWhile isAlnumCh
    if run.isEmpty then none else some ("wxid_".data ++ run)
  else none

/-- Anchored match of `[Dd]?wxid_[a-zA-Z0-9]+` at the head of a string.
As in the regex, a leading `D`/`d` is consumed greedily; no backtracking is
needed since `D`/`d` never begins `wxid_`. -/
def wxidAt (s : List Char) : Option (List Char) :=
  match s with
  | 'D' :: rest => (wxidCore rest).map ('D' :: ·)
  | 'd' :: rest => (wxidCore rest).map ('d' :: ·)
  | _ => wxidCore s

/-- Leftmost occurrence of `[Dd]?wxid_[a-zA-Z0-9]+` anywhere in the string
(model of `senderUsername.match(/([Dd]?wxid_[a-zA-Z0-9]+)/)`). -/
def findWxid : List Char → Option (List Char)
  | [] => none
  | c :: rest =>
    match wxidAt (c :: rest) with
    | some r => some r
    | none => findWxid rest

/-- Model of `senderUsername.match(/([a-zA-Z][a-zA-Z0-9_]{3,})$/)`: the
leftmost (hence longest) trailing run of word characters that starts with a
letter and has length at least 4. -/
def trailingName (s : List Char) : Option (List Char) :=
  let w := (s.reverse.takeWhile isWordCh).reverse
  let t := w.dropWhile (fun c => !(isAlphaCh c))
  if 4 ≤ t.length then some t else none

/-- Model of the username-cleaning step of extract-date.ts (lines 93–104):
first try to extract a `[Dd]?wxid_…` token, then a trailing plain username,
otherwise keep the raw sender username. -/
def extractCleanUsername (s : List Char) : List Char :=
  match findWxid s with
  | some w => w
  | none =>
    match trailingName s with
    | some t => t
    | none => s

/-- A contact row (`SELECT username, nick_name, remark FROM contact`); a SQL
`NULL` or empty field is modelled by the empty string, which is what the
scripts' JS falsiness tests distinguish. -/
structure Contact where
  username : List Char
  nick_name : List Char
  remark : List Char
deriving DecidableEq, Repr

/-- `Map.get` for the contact map built by repeated `contacts.set(username, c)`:
the last row for a username wins. -/
def mapGetC (contacts : List Contact) (k : List Char) : Option Contact :=
  contacts.reverse.find? (fun c => c.username == k)

/-- `Map.get` for a string-to-string map (user aliases). -/
def mapGetS (m : List (List Char × List Char)) (k : List Char) : Option (List Char) :=
  (m.reverse.find? (fun p => p.1 == k)).map (·.2)

/-- JS `a || b` on strings (empty string is falsy). -/
def firstTruthy (a b : List Char) : List Char := if a.isEmpty then b else a

/-- Tier 1: `contacts.get(cleanUsername) || contacts.get(senderUsername)`,
then `contact?.remark || contact?.nick_name`.  (extract-from-db performs the
same lookup with `cleanU = rawU`.) -/
def contactName (contacts : List Contact) (cleanU rawU : List Char) : List Char :=
  match (match mapGetC contacts cleanU with
         | some c => some c
         | none => mapGetC contacts rawU) with
  | some c => firstTruthy c.remark c.nick_name
  | none => []

/-- Tier 2: `userAliases.get(cleanUsername) || userAliases.get(senderUsername)`. -/
def aliasName (aliases : List (List Char × List Char)) (cleanU rawU : List Char) : List Char :=
  firstTruthy ((mapGetS aliases cleanU).getD []) ((mapGetS aliases rawU).getD [])

/-- The three-tier display-name resolution of extract-date.ts lines 106–115
(and, with `cleanU = rawU`, extract-from-db lines 166–174). -/
def resolveDisplayName (contacts : List Contact) (aliases : List (List Char × List Char))
    (cleanU rawU : List Char) : List Char :=
  let d1 := contactName contacts cleanU rawU
  if !d1.isEmpty then d1
  else
    let d2 := aliasName aliases cleanU rawU
    if !d2.isEmpty then d2
    else if isWxidFormat cleanU then "群成员".data
    else if cleanU.isEmpty then "群成员".data
    else cleanU

/-- The complete sender-username-to-display-name path of extract-date.ts. -/
def displayNameOf (contacts : List Contact) (aliases : List (List Char × List Char))
    (senderU : List Char) : List Char :=
  resolveDisplayName contacts aliases (extractCleanUsername senderU) senderU

/-! ### C10 — categorizeUsers (generate-ops-report.ts lines 134–187)

The source computes `avgMessages = Σ totalMessages / n`,
`avgDays = Σ activeDays.size / n` and compares the per-user ratios
`totalMessages / avgMessages` and `activeDays.size / avgDays` against the
thresholds 3, 2, 1.5 and 0.5.  Those comparisons are modelled exactly by
cross-multiplication over ℕ; the JS special cases (`x / 0` is `NaN` for
`x = 0`, `+∞` for `x > 0`, and every comparison with `NaN` is false) are
reproduced in `ratioCmpGe`. -/

structure UserProfile where
  displayName : List Char
  totalMessages : Nat
  activeDaysSize : Nat
  lastSeenMs : Int
deriving DecidableEq, Repr

structure CatRes where
  cocreators : List (List Char)
  heavy : List (List Char)
  medium : List (List Char)
  light : List (List Char)
  silent : List (List Char)
  churned : List (List Char)
deriving DecidableEq, Repr

inductive Tier
  | co | heavy | medium | light | silent
deriving DecidableEq, Repr

/-- Decides `(total / (sum / n)) ≥ p / q` for `q > 0`, following JS number
semantics: when `n = 0` the average is `NaN` and the comparison is false;
when `sum = 0` (and `n > 0`) the ratio is `NaN` (false) for `total = 0` and
`+∞` (true) otherwise; else the comparison is exact. -/
def ratioCmpGe (total n sum p q : Nat) : Bool :=
  if n = 0 then false
  else if sum = 0 then decide (0 < total)
  else decide (p * sum ≤ q * (total * n))

/-- The if/else-if chain of lines 167–177 as a classifier: cocreator when
`msgRatio ≥ 3 ∧ dayRatio ≥ 2`; else heavy when either ratio `≥ 1.5`; else
medium when either ratio `≥ 0.5`; else light when `totalMessages > 2`; else
silent. -/
def tierOf (mSum dSum n : Nat) (u : UserProfile) : Tier :=
  if ratioCmpGe u.totalMessages n mSum 3 1 && ratioCmpGe u.activeDaysSize n dSum 2 1 then .co
  else if ratioCmpGe u.totalMessages n mSum 3 2 || ratioCmpGe u.activeDaysSize n dSum 3 2 then .heavy
  else if ratioCmpGe u.totalMessages n mSum 1 2 || ratioCmpGe u.activeDaysSize n dSum 1 2 then .medium
  else if 2 < u.totalMessages then .light
  else .silent

/-- The churn test of line 180: at least 5 messages and last seen strictly
before `now - 7 days`. -/
def isChurned (nowMs : Int) (u : UserProfile) : Bool :=
  decide (5 ≤ u.totalMessages) && decide (u.lastSeenMs < nowMs - 7 * 86400000)

/-- One iteration of the user loop: push the display name onto the list of the
user's tier, and additionally onto `churned` when the churn test fires. -/
def categorizeStep (mSum dSum n : Nat) (nowMs : Int) (r : CatRes) (u : UserProfile) : CatRes :=
  let r1 :=
    match tierOf mSum dSum n u with
    | .co => { r with cocreators := r.cocreators ++ [u.displayName] }
    | .heavy => { r with heavy := r.heavy ++ [u.displayName] }
    | .medium => { r with medium := r.medium ++ [u.displayName] }
    | .light => { r with light := r.light ++ [u.displayName] }
    | .silent => { r with silent := r.silent ++ [u.displayName] }
  if isChurned nowMs u then { r1 with churned := r1.churned ++ [u.displayName] }
  else r1

/-- Model of `categorizeUsers`. -/
def categorizeUsers (users : List UserProfile) (nowMs : Int) : CatRes :=
  let n := users.length
  let mSum := (users.map (·.totalMessages)).sum
  let dSum := (users.map (·.activeDaysSize)).sum
  users.foldl (categorizeStep mSum dSum n nowMs) ⟨[], [], [], [], [], []⟩

/-- Two users that share the display name `X` but land in different tiers. -/
def cxUsers : List UserProfile :=
  [⟨"X".data, 100, 10, 0⟩, ⟨"X".data, 1, 1, 0⟩]

/-! ### C3/C4 — SQLite table discovery and timestamp-range filtering
(extract-date.ts lines 13, 59–70; extract-from-db lines 110–144) -/

/-- A row of the extract-date.ts group-message table (`create_time` is in
seconds). -/
structure MsgRow where
  create_time : Nat
  message_content : List Char
deriving DecidableEq, Repr

/-- A row of an extract-from-db message table (`createTime` is in
milliseconds); only the columns these claims depend on are modelled. -/
structure DbRow where
  createTime : Nat
  talker : List Char
  content : List Char
deriving DecidableEq, Repr

/-- A row of `sqlite_master`. -/
structure SchemaRow where
  name : List Char
  type : List Char
deriving DecidableEq, Repr

/-- Ascending insertion by a natural-number key. -/
def insertByKey (key : α → Nat) (a : α) : List α → List α
  | [] => [a]
  | b :: bs => if key a ≤ key b then a :: b :: bs else b :: insertByKey key a bs

/-- Ascending sort by a natural-number key (models SQL `ORDER BY … ASC`:
the result is the same multiset, in ascending key order). -/
def sortByKey (key : α → Nat) : List α → List α
  | [] => []
  | a :: as => insertByKey key a (sortByKey key as)

/-- The hardcoded table read by extract-date.ts (line 13). -/
def GROUP_TABLE : List Char := "Msg_f330f51132799c870641cbaf14f1ac21".data

/-- The hardcoded target group of extract-from-db (line 11). -/
def TARGET_GROUP : List Char := "50381382798@chatroom".data

/-- extract-date.ts message query (lines 59–70):
`WHERE create_time >= startTs AND create_time < startTs + 86400
ORDER BY create_time ASC` on the one hardcoded table. -/
def extractDateRows (table : List MsgRow) (startTs : Nat) : List MsgRow :=
  sortByKey (·.create_time)
    (table.filter (fun r =>
      decide (startTs ≤ r.create_time) && decide (r.create_time < startTs + 86400)))

/-- extract-date.ts reads its rows from the hardcoded `GROUP_TABLE` entry of
the message database (modelled as a name-to-rows association). -/
def extractDateTableRows (db : List (List Char × List MsgRow)) : List MsgRow :=
  ((db.find? (fun p => p.1 == GROUP_TABLE)).map (·.2)).getD []

/-- SQLite `name LIKE 'Msg_%'`: `LIKE` is case-insensitive for ASCII and `_`
is a single-character wildcard, so this selects every name whose first three
characters case-fold to `msg` followed by at least one further character. -/
def likeMsgPattern (name : List Char) : Bool :=
  match name.map Char.toLower with
  | 'm' :: 's' :: 'g' :: _ :: _ => true
  | _ => false

/-- extract-from-db table discovery (line 111):
`SELECT name FROM sqlite_master WHERE type='table' AND name LIKE 'Msg_%'`. -/
def discoverTables (schema : List SchemaRow) : List (List Char) :=
  (schema.filter (fun r => r.type == "table".data && likeMsgPattern r.name)).map (·.name)

/-- extract-from-db per-table scan and concatenation (lines 116–132): each
discovered table is queried with `WHERE talker = ? ORDER BY createTime ASC`
and the per-table results are appended in table order. -/
def scanTables (tables : List (List DbRow)) (group : List Char) : List DbRow :=
  (tables.map (fun t => sortByKey (·.createTime) (t.filter (fun r => r.talker == group)))).flatten

/-- extract-from-db date filter (lines 137–144): keep `createTime` in
`[startMs, startMs + 86400000)`. -/
def filterWindowMs (ms : List DbRow) (startMs : Nat) : List DbRow :=
  ms.filter (fun r =>
    decide (startMs ≤ r.createTime) && decide (r.createTime < startMs + 86400000))

/-- The messages extract-from-db places in its output JSON (before the
field-renaming map, which preserves order and timestamps). -/
def extractFromDbMessages (tables : List (List DbRow)) (group : List Char) (startMs : Nat) :
    List DbRow :=
  filterWindowMs (scanTables tables group) startMs

/-- The scanning loop of `String.replace` with a global regex
`opn([\s\S]*?)cls` and callback `f`: find the leftmost `opn`, the earliest
`cls` after it, replace, continue after the consumed match.  The loop is
written with a fuel argument to keep it structurally recursive; every
consumed match is at least one character long (the closing tags are
non-empty), so `fuel = s.length` always suffices and the fuel case is never
the one that stops the scan. -/
def replaceGo (opn cls : List Char) (f : List Char → List Char) : Nat → List Char → List Char
  | 0, s => s
  | fuel + 1, s =>
    match findTok? opn s with
    | none => s
    | some i =>
      match findTok? cls (s.drop (i + opn.length)) with
      | none => s
      | some j =>
        s.take i ++ f ((s.drop (i + opn.length)).take j) ++
          replaceGo opn cls f fuel ((s.drop (i + opn.length)).drop (j + cls.length))

/-- `String.replace` with a global block regex.  The `cls.isEmpty` guard is
never exercised by the pipeline; it only rules out an empty-pattern loop. -/
def replaceBlocks (opn cls : List Char) (f : List Char → List Char) (s : List Char) :
    List Char :=
  if cls.isEmpty then s else replaceGo opn cls f s.length s

/-- The scanning loop of `String.matchAll` with a block regex, with the same
fuel discipline. -/
def collectGo (opn cls : List Char) : Nat → List Char → List (List Char)
  | 0, _ => []
  | fuel + 1, s =>
    match findTok? opn s with
    | none => []
    | some i =>
      match findTok? cls (s.drop (i + opn.length)) with
      | none => []
      | some j =>
        (s.drop (i + opn.length)).take j ::
          collectGo opn cls fuel ((s.drop (i + opn.length)).drop (j + cls.length))

/-- `String.matchAll` with a block regex: the block contents in scan order. -/
def collectBlocks (opn cls : List Char) (s : List Char) : List (List Char) :=
  if cls.isEmpty then [] else collectGo opn cls s.length s

/-- Characters stripped from a stat value (`.replace(/[条人个]/g, '')`). -/
def remUnits (c : Char) : Bool := c == '条' || c == '人' || c == '个'

/-- One stats line: `parts = line.split(':')`; with at least two parts the
label is the trimmed text before the first colon and the value is the trimmed
text after it with `条`, `人`, `个` removed; otherwise the line contributes
nothing. -/
def statLineHtml (line : List Char) : List Char :=
  match findTok? ":".data line with
  | none => []
  | some k =>
    "<div class=\"stat-item\"><div class=\"stat-value\">".data ++
      ((trimStr (line.drop (k + 1))).filter (fun c => !(remUnits c))) ++
    "</div><div class=\"stat-label\">".data ++ trimStr (line.take k) ++
    "</div></div>".data

/-- The `[STATS]` callback (lines 466–478): a `stats-grid` div holding one
`stat-item` per non-blank `label: value` line of the trimmed block content. -/
def statsCb (content : List Char) : List Char :=
  "<div class=\"stats-grid\">".data ++
  (((splitLines (trimStr content)).filter (fun l => !(trimStr l).isEmpty)).map
    statLineHtml).flatten ++
  "</div>".data

/-- The `[TOPIC]` callback (lines 481–483): wrap the content in a
`topic-card` div. -/
def topicCb (content : List Char) : List Char :=
  "<div class=\"topic-card\">".data ++ content ++ "</div>".data

/-- Opening quote characters of `/[「"'](.+?)[」"']…/`. -/
def quoteOpenCh (c : Char) : Bool := c == '「' || c == '"' || c == '\''

/-- Closing quote characters. -/
def quoteCloseCh (c : Char) : Bool := c == '」' || c == '"' || c == '\''

/-- The dash class `[—-]` (an em-dash or a hyphen). -/
def dashCh (c : Char) : Bool := c == '—' || c == '-'

/-- `\s*(.+?)(?:\n|$)` after the dash run: skip the whitespace run; the lazy
group then reaches exactly to the end of the current line.  When only
whitespace remains the engine backtracks into `\s*`, matching the trailing
non-newline whitespace run. -/
def qTailAuthor (r2 : List Char) : Option (List Char) :=
  let k := (r2.takeWhile isWsChar).length
  if k < r2.length then some ((r2.drop k).takeWhile (fun c => !(c == '\n')))
  else
    let p := r2.reverse.dropWhile (fun c => c == '\n')
    if p.isEmpty then none
    else some (p.takeWhile (fun c => !(c == '\n'))).reverse

/-- `\s*[—-]+\s*(.+?)(?:\n|$)` after the closing quote character. -/
def qTail (r : List Char) : Option (List Char) :=
  let r1 := r.dropWhile isWsChar
  let d := (r1.takeWhile dashCh).length
  if d = 0 then none
  else qTailAuthor (r1.drop d)

/-- Scan for the lazy group's closing quote character: the group extends over
non-newline characters; a closing character with a matching tail ends it,
otherwise it is absorbed into the group and the scan continues. -/
def qClose (acc : List Char) : List Char → Option (List Char × List Char)
  | [] => none
  | c :: rest =>
    if c == '\n' then none
    else if quoteCloseCh c && !acc.isEmpty then
      match qTail rest with
      | some author => some (acc.reverse, author)
      | none => qClose (c :: acc) rest
    else qClose (c :: acc) rest

/-- Leftmost match of `/[「"'](.+?)[」"']\s*[—-]+\s*(.+?)(?:\n|$)/`, returning
the raw quote text and author captures. -/
def qScan : List Char → Option (List Char × List Char)
  | [] => none
  | c :: rest =>
    if quoteOpenCh c then
      match qClose [] rest with
      | some r => some r
      | none => qScan rest
    else qScan rest

/-- Anchored match of the `\*\*💡\s*思考[：:]\*\*` marker; returns the text
after the marker. -/
def thinkChew (s : List Char) : Option (List Char) :=
  if isPre "**💡".data s then
    if isPre "思考".data ((s.drop 3).dropWhile isWsChar) then
      match ((s.drop 3).dropWhile isWsChar).drop 2 with
      | c :: r2 =>
        if c == '：' || c == ':' then
          if isPre "**".data r2 then some (r2.drop 2) else none
        else none
      | [] => none
    else none
  else none

/-- Leftmost occurrence of the thinking marker; returns the text after it. -/
def thinkAfter : List Char → Option (List Char)
  | [] => none
  | c :: rest =>
    match thinkChew (c :: rest) with
    | some r => some r
    | none => thinkAfter rest

/-- The `[QUOTE]` callback (lines 486–503): when the quote/author regex
matches, a structured `quote-card` (the later `\s*([\s\S]*?)$` capture plus
`.trim()` make the thinking text the trimmed remainder after the marker);
otherwise a plain `quote-card` holding the raw content. -/
def quoteCb (content : List Char) : List Char :=
  match qScan content with
  | some (q, a) =>
    let thinking := match thinkAfter content with
      | some r => trimStr r
      | none => []
    "<div class=\"quote-card\">\n        <div class=\"quote-text\">「".data ++
      (trimStr q ++
      ("」</div>\n        <div class=\"quote-author\">—— ".data ++ (trimStr a ++
      ("</div>\n        ".data ++
      ((if thinking.isEmpty then [] else
        "<div class=\"quote-thinking\">".data ++ (thinking ++ "</div>".data)) ++
      "\n      </div>".data)))))
  | none => "<div class=\"quote-card\">".data ++ (content ++ "</div>".data)

/-- Apply a line transformation to every line (model of an `^…$`-anchored
regex replace with the `gm` flags). -/
def mapLines (f : List Char → List Char) (s : List Char) : List Char :=
  joinNL ((splitLines s).map f)

/-- `["]?\s*$`: optionally one double quote, then trailing whitespace. -/
def suffixOkDq (s : List Char) : Bool :=
  s.all isWsChar ||
  (match s with
   | '"' :: t => t.all isWsChar
   | _ => false)

/-- Lazy scan for group 2 of the dialog regex: the shortest non-empty prefix
whose remainder matches `["]?\s*$`. -/
def g2Scan (acc : List Char) : List Char → Option (List Char)
  | [] => none
  | c :: rest =>
    if suffixOkDq rest then some (c :: acc).reverse
    else g2Scan (c :: acc) rest

/-- One attempt of `["]?(.+?)["]?\s*$` at whitespace offset `k`: the optional
quote is consumed first (greedily); on failure the quote joins the group. -/
def dialogAttempt (r : List Char) (k : Nat) : Option (List Char) :=
  match r.drop k with
  | '"' :: r2 =>
    match g2Scan [] r2 with
    | some g2 => some g2
    | none => g2Scan [] (r.drop k)
  | _ => g2Scan [] (r.drop k)

/-- `\s*["]?(.+?)["]?\s*$` after `:**`, with the engine's backtracking order:
longest whitespace run first. -/
def dialogTryK (r : List Char) : Nat → Option (List Char)
  | 0 => dialogAttempt r 0
  | k + 1 =>
    match dialogAttempt r (k + 1) with
    | some g2 => some g2
    | none => dialogTryK r k

/-- `(.+?):\*\*`: the non-empty group before the first `":**"` occurring at
index at least 1, and the remainder after it. -/
def dialogG1 (r : List Char) : Option (List Char × List Char) :=
  match r with
  | [] => none
  | c :: rest =>
    match findTok? ":**".data rest with
    | none => none
    | some k => some (c :: rest.take k, rest.drop (k + 3))

/-- The dialog-quote line replace (line 506):
`^>\s*\*\*(.+?):\*\*\s*["]?(.+?)["]?\s*$` →
`<div class="dialog-quote"><span class="dialog-author">$1:</span> "$2"</div>`. -/
def dialogLine (line : List Char) : List Char :=
  match line with
  | '>' :: r0 =>
    match r0.dropWhile isWsChar with
    | '*' :: '*' :: r2 =>
      match dialogG1 r2 with
      | none => line
      | some (g1, r3) =>
        match dialogTryK r3 ((r3.takeWhile isWsChar).length) with
        | none => line
        | some g2 =>
          "<div class=\"dialog-quote\"><span class=\"dialog-author\">".data ++ g1 ++
          ":</span> \"".data ++ g2 ++ "\"</div>".data
    | _ => line
  | _ => line

/-- The blockquote line replace (line 508): `^>\s*(.+)$` →
`<blockquote>$1</blockquote>`; with only whitespace after `>` the engine
backtracks one whitespace character into the group. -/
def bqLine (line : List Char) : List Char :=
  match line with
  | '>' :: r =>
    if r.isEmpty then line
    else
      "<blockquote>".data ++
        r.drop (min ((r.takeWhile isWsChar).length) (r.length - 1)) ++
      "</blockquote>".data
  | _ => line

/-- `^# (.*$)` → `<h1>$1</h1>`. -/
def h1Line (line : List Char) : List Char :=
  match line with
  | '#' :: ' ' :: r => "<h1>".data ++ r ++ "</h1>".data
  | _ => line

/-- `^## (.*$)` → `<h2>$1</h2>`. -/
def h2Line (line : List Char) : List Char :=
  match line with
  | '#' :: '#' :: ' ' :: r => "<h2>".data ++ r ++ "</h2>".data
  | _ => line

/-- `^### (.*$)` → `<h3>$1</h3>`. -/
def h3Line (line : List Char) : List Char :=
  match line with
  | '#' :: '#' :: '#' :: ' ' :: r => "<h3>".data ++ r ++ "</h3>".data
  | _ => line

/-- `^- (.*$)` → `<li>$1</li>`. -/
def liLine (line : List Char) : List Char :=
  match line with
  | '-' :: ' ' :: r => "<li>".data ++ r ++ "</li>".data
  | _ => line

/-- `^\d+\.\s+(.*$)` → `<li class="numbered">$1</li>`. -/
def numLine (line : List Char) : List Char :=
  let d := (line.takeWhile Char.isDigit).length
  if d = 0 then line
  else
    match line.drop d with
    | '.' :: r =>
      let w := (r.takeWhile isWsChar).length
      if w = 0 then line
      else "<li class=\"numbered\">".data ++ r.drop w ++ "</li>".data
    | _ => line

/-- The lazy closing scan for `\*\*(.*?)\*\*`: the (possibly empty) group
extends over non-newline characters up to the first `**`. -/
def strongClose : List Char → Option (List Char × List Char)
  | [] => none
  | c :: r =>
    if c == '\n' then none
    else if c == '*' && isPre "*".data r then some ([], r.drop 1)
    else
      match strongClose r with
      | some (mid, after) => some (c :: mid, after)
      | none => none

/-- The scan of `\*\*(.*?)\*\*/g` → `<strong>$1</strong>` (line 515); on a
failed open the scan advances one character, as the JS engine does.  Fuel
keeps the recursion structural; each step consumes at least one character, so
`fuel = s.length` suffices. -/
def strongGo : Nat → List Char → List Char
  | 0, s => s
  | fuel + 1, s =>
    match s with
    | [] => []
    | c :: rest =>
      if isPre "**".data (c :: rest) then
        match strongClose (rest.drop 1) with
        | some (mid, after) =>
          "<strong>".data ++ (mid ++ ("</strong>".data ++ strongGo fuel after))
        | none => c :: strongGo fuel rest
      else c :: strongGo fuel rest

/-- `\*\*(.*?)\*\*/g` → `<strong>$1</strong>`. -/
def strongPass (s : List Char) : List Char := strongGo s.length s

/-- The lazy closing scan for `\*(.*?)\*`: the group stops at the first `*`. -/
def emClose : List Char → Option (List Char × List Char)
  | [] => none
  | c :: r =>
    if c == '\n' then none
    else if c == '*' then some ([], r)
    else
      match emClose r with
      | some (mid, after) => some (c :: mid, after)
      | none => none

/-- The scan of `\*(.*?)\*/g` → `<em>$1</em>` (line 516), with the same fuel
discipline. -/
def emGo : Nat → List Char → List Char
  | 0, s => s
  | fuel + 1, s =>
    match s with
    | [] => []
    | c :: rest =>
      if c = '*' then
        match emClose rest with
        | some (mid, after) => "<em>".data ++ (mid ++ ("</em>".data ++ emGo fuel after))
        | none => c :: emGo fuel rest
      else c :: emGo fuel rest

/-- `\*(.*?)\*/g` → `<em>$1</em>`. -/
def emPass (s : List Char) : List Char := emGo s.length s

/-- `\n` → `<br>` (line 519). -/
def brPass (s : List Char) : List Char :=
  ((s.map (fun c => if c == '\n' then "<br>".data else [c])).flatten)

/-- The markdown-to-HTML transformation chain of lines 506–519, in source
order: dialog quotes, blockquotes, `#`/`##`/`###` headers, bold, italics,
bullet items, numbered items, newline-to-`<br>`. -/
def mdPasses (s : List Char) : List Char :=
  brPass (mapLines numLine (mapLines liLine (emPass (strongPass
    (mapLines h3Line (mapLines h2Line (mapLines h1Line
      (mapLines bqLine (mapLines dialogLine s)))))))))

/-- The three template-tag substitution passes of lines 466–503, in source
order: `[STATS]`, then `[TOPIC]`, then `[QUOTE]`. -/
def tagPasses (s : List Char) : List Char :=
  replaceBlocks "[QUOTE]".data "[/QUOTE]".data quoteCb
    (replaceBlocks "[TOPIC]".data "[/TOPIC]".data topicCb
      (replaceBlocks "[STATS]".data "[/STATS]".data statsCb s))

/-- The HTML document template of lines 521–731, up to the interpolated date
in the `<title>`. -/
def htmlWrapA : List Char :=
  "<!DOCTYPE html>\n<html lang=\"zh-CN\">\n<head>\n  <meta charset=\"UTF-8\">\n  <meta name=\"viewport\" content=\"width=device-width, initial-scale=1.0\">\n  <title>复利日知录精华报告 - ".data

/-- The template between the date and the interpolated body (the full CSS). -/
def htmlWrapB : List Char :=
  "</title>\n  <style>\n    :root \x7b\n      --bg-dark: #0f1419;\n      --bg-card: #1a1f2e;\n      --bg-section: rgba(45, 55, 72, 0.5);\n      --bg-topic: rgba(30, 40, 55, 0.8);\n      --accent: #4fd1c5;\n      --accent-soft: #38b2ac;\n      --accent-pink: #f472b6;\n      --text-primary: #e2e8f0;\n      --text-secondary: #a0aec0;\n      --text-muted: #718096;\n      --border: rgba(255,255,255,0.06);\n      --quote-g".data ++
  "old: #fbbf24;\n    \x7d\n    * \x7b margin: 0; padding: 0; box-sizing: border-box; \x7d\n    body \x7b\n      font-family: -apple-system, BlinkMacSystemFont, 'Segoe UI', Roboto, 'Noto Sans SC', sans-serif;\n      background: var(--bg-dark);\n      min-height: 100vh;\n      padding: 16px;\n      line-height: 1.75;\n      color: var(--text-primary);\n      font-size: 15px;\n    \x7d\n    .container \x7b\n      max-width: 640px;\n ".data ++
  "     margin: 0 auto;\n      background: var(--bg-card);\n      border-radius: 12px;\n      padding: 24px;\n    \x7d\n    \n    /* 标题 */\n    h1 \x7b\n      color: var(--accent);\n      font-size: 1.3em;\n      margin-bottom: 20px;\n      text-align: center;\n      font-weight: 600;\n    \x7d\n    h2 \x7b\n      color: var(--text-primary);\n      font-size: 1.05em;\n      font-weight: 600;\n      margin: 24px 0 14px;\n      padd".data ++
  "ing: 10px 14px;\n      background: var(--bg-section);\n      border-radius: 6px;\n      border-left: 3px solid var(--accent);\n    \x7d\n    h3 \x7b\n      color: var(--accent-pink);\n      font-size: 0.95em;\n      font-weight: 500;\n      margin: 18px 0 10px;\n      padding-left: 10px;\n      border-left: 2px solid var(--accent-pink);\n    \x7d\n    \n    /* 统计卡片网格 */\n    .stats-grid \x7b\n      display: grid;\n      grid-".data ++
  "template-columns: repeat(2, 1fr);\n      gap: 12px;\n      margin: 16px 0 20px;\n    \x7d\n    .stat-item \x7b\n      background: rgba(79, 209, 197, 0.08);\n      border-radius: 10px;\n      padding: 16px;\n      text-align: center;\n      border: 1px solid var(--border);\n    \x7d\n    .stat-value \x7b\n      font-size: 2em;\n      font-weight: 700;\n      color: #a78bfa;\n    \x7d\n    .stat-label \x7b\n      font-size: 0.75em;\n ".data ++
  "     color: var(--text-muted);\n      margin-top: 4px;\n    \x7d\n    \n    /* 话题卡片 */\n    .topic-card \x7b\n      background: var(--bg-topic);\n      border-radius: 10px;\n      padding: 18px;\n      margin: 16px 0;\n      border: 1px solid var(--border);\n    \x7d\n    .topic-card h3 \x7b\n      color: var(--accent-pink);\n      margin: 0 0 12px 0;\n      padding: 0;\n      border: none;\n      font-size: 1em;\n    \x7d\n    .t".data ++
  "opic-card li \x7b\n      margin: 6px 0;\n      font-size: 0.9em;\n    \x7d\n    \n    /* 对话引用 */\n    .dialog-quote \x7b\n      background: rgba(255,255,255,0.04);\n      border-left: 2px solid var(--accent);\n      padding: 10px 14px;\n      margin: 10px 0;\n      border-radius: 0 6px 6px 0;\n      font-size: 0.88em;\n      color: var(--text-secondary);\n    \x7d\n    .dialog-author \x7b\n      color: var(--accent);\n      font".data ++
  "-weight: 500;\n    \x7d\n    \n    /* 金句卡片 */\n    .quote-card \x7b\n      background: rgba(251, 191, 36, 0.06);\n      border-radius: 10px;\n      padding: 18px;\n      margin: 16px 0;\n      border: 1px solid rgba(251, 191, 36, 0.15);\n    \x7d\n    .quote-text \x7b\n      color: var(--quote-gold);\n      font-size: 1.05em;\n      font-weight: 500;\n      line-height: 1.6;\n      margin-bottom: 8px;\n    \x7d\n    .quote-author".data ++
  " \x7b\n      color: var(--accent-pink);\n      font-size: 0.85em;\n      text-align: right;\n      margin-bottom: 12px;\n    \x7d\n    .quote-thinking \x7b\n      background: rgba(0,0,0,0.2);\n      border-radius: 6px;\n      padding: 12px;\n      font-size: 0.85em;\n      color: var(--text-muted);\n      line-height: 1.6;\n    \x7d\n    \n    /* 列表 */\n    li \x7b\n      margin: 8px 0;\n      padding-left: 16px;\n      list-style".data ++
  ": none;\n      position: relative;\n      color: var(--text-secondary);\n      font-size: 0.92em;\n    \x7d\n    li::before \x7b\n      content: \"•\";\n      color: var(--accent);\n      position: absolute;\n      left: 0;\n    \x7d\n    li.numbered::before \x7b content: \"\"; \x7d\n    \n    strong \x7b color: var(--accent); font-weight: 500; \x7d\n    em \x7b color: var(--text-muted); font-style: normal; \x7d\n    blockquote \x7b\n      backgr".data ++
  "ound: rgba(255,255,255,0.03);\n      border-left: 2px solid var(--accent);\n      padding: 8px 12px;\n      margin: 8px 0;\n      border-radius: 0 6px 6px 0;\n      font-size: 0.88em;\n      color: var(--text-secondary);\n    \x7d\n    \n    .footer \x7b\n      text-align: center;\n      color: var(--text-muted);\n      font-size: 0.7em;\n      margin-top: 24px;\n      padding-top: 14px;\n      border-top: 1px solid v".data ++
  "ar(--border);\n    \x7d\n    \n    /* 清理多余换行 */\n    br + br \x7b display: none; \x7d\n    h2 + br, h3 + br, li + br \x7b display: none; \x7d\n    .topic-card br + br \x7b display: none; \x7d\n    .quote-card br \x7b display: none; \x7d\n    .stats-grid + br \x7b display: none; \x7d\n  </style>\n</head>\n<body>\n  <div class=\"container\">\n    ".data

/-- The template after the interpolated body (footer and closing tags). -/
def htmlWrapC : List Char :=
  "\n    <div class=\"footer\">\n      由 AI 自动生成 · 复利日知录社群\n    </div>\n  </div>\n</body>\n</html>".data

/-- Model of `generateHtmlReport(markdownContent, date)`: tag-block
substitution, then the markdown transformation chain, then the document
template wrap. -/
def generateHtmlReport (markdown date : List Char) : List Char :=
  htmlWrapA ++ date ++ htmlWrapB ++ mdPasses (tagPasses markdown) ++ htmlWrapC

/-- No `'['` occurs in the string (tag tokens all start with `'['`). -/
def noBr (s : List Char) : Bool := s.all (fun c => !(c == '['))

/-! Well-formed markdown: an interleaving of plain segments and
`[STATS]`/`[TOPIC]`/`[QUOTE]` blocks in which `'['` occurs only in the tag
delimiters themselves. -/

/-- One template block of the markdown. -/
inductive Blk where
  | stats (c : List Char)
  | topic (c : List Char)
  | quote (c : List Char)
deriving DecidableEq, Repr

/-- The content of a block. -/
def blkContent : Blk → List Char
  | .stats c => c
  | .topic c => c
  | .quote c => c

/-- Render each piece (a segment followed by a block) with `g` for the
blocks, then the final segment. -/
def renderWith (g : Blk → List Char) : List (List Char × Blk) → List Char → List Char
  | [], fin => fin
  | (seg, b) :: rest, fin => seg ++ (g b ++ renderWith g rest fin)

/-- A block as markdown source: delimiters around the content. -/
def renderBlk : Blk → List Char
  | .stats c => "[STATS]".data ++ (c ++ "[/STATS]".data)
  | .topic c => "[TOPIC]".data ++ (c ++ "[/TOPIC]".data)
  | .quote c => "[QUOTE]".data ++ (c ++ "[/QUOTE]".data)

/-- A block after the `[STATS]` pass. -/
def blkOut1 : Blk → List Char
  | .stats c => statsCb c
  | .topic c => renderBlk (.topic c)
  | .quote c => renderBlk (.quote c)

/-- A block after the `[STATS]` and `[TOPIC]` passes. -/
def blkOut2 : Blk → List Char
  | .stats c => statsCb c
  | .topic c => topicCb c
  | .quote c => renderBlk (.quote c)

/-- A block after all three tag passes. -/
def blkOut : Blk → List Char
  | .stats c => statsCb c
  | .topic c => topicCb c
  | .quote c => quoteCb c

/-- Well-formedness: every segment and every block content is free of `'['`,
and so is the final segment. -/
def wfPieces (ps : List (List Char × Blk)) (fin : List Char) : Bool :=
  ps.all (fun p => noBr p.1 && noBr (blkContent p.2)) && noBr fin

/-! ### C7 — no retry and no report writes on AI failure

`analyzeWithGemini` (extract-date.ts lines 449–457) makes one
`model.generateContent` call inside `try` and rethrows on `catch`; `main`
(lines 773–838) writes `reports/[date]/daily-report.{md,html,png}` only
after the AI step returned. The API is modelled as an oracle giving the
outcome of each successive call; the model returns the number of calls
performed so that "no retry" is expressible. -/

abbrev ApiErr := List Char

/-- Model of `analyzeWithGemini`: exactly one API call; its text is returned
on success and the error is rethrown unchanged on failure (lines 449–456). -/
def analyzeWithGemini (oracle : Nat → Except ApiErr (List Char)) :
    Except ApiErr (List Char) × Nat :=
  (match oracle 0 with
   | .ok txt => .ok txt
   | .error e => .error e, 1)

/-- One file write of the pipeline: a path and its content (`none` for the
PNG, whose bytes come from the headless browser's screenshot). -/
structure FsWrite where
  path : List Char
  content : Option (List Char)
deriving DecidableEq, Repr

def mdPath (d : List Char) : List Char := "reports/".data ++ d ++ "/daily-report.md".data

def htmlPath (d : List Char) : List Char := "reports/".data ++ d ++ "/daily-report.html".data

def pngPath (d : List Char) : List Char := "reports/".data ++ d ++ "/daily-report.png".data

/-- Model of `main` (analyze-wechat, lines 773–838) after the chat history is
loaded: preprocess; exit early with no writes when no message remains for the
date; otherwise run the AI step (propagating its error before any write) and
then write the markdown, HTML and PNG reports in order. Returns the outcome,
the list of file writes performed, and the number of API calls made. -/
def mainDaily (msgs : List ChatMessage) (targetDate : List Char)
    (oracle : Nat → Except ApiErr (List Char)) :
    Except ApiErr Unit × List FsWrite × Nat :=
  let processed := preprocessMessages msgs (some targetDate)
  if processed.isEmpty then (.ok (), [], 0)
  else
    match analyzeWithGemini oracle with
    | (.error e, n) => (.error e, [], n)
    | (.ok report, n) =>
      (.ok (), [⟨mdPath targetDate, some report⟩,
                ⟨htmlPath targetDate, some (generateHtmlReport report targetDate)⟩,
                ⟨pngPath targetDate, none⟩], n)

/-- Tail match `\s*——\s*(.+)$` of the gold-quote line regex, on the
newline-free first line: whitespace, the literal `——`, then (after greedy
whitespace, backtracking once when nothing is left) the non-empty author
group extending to the end of the line. -/
def jTailAuthor (t : List Char) : Option (List Char) :=
  let w := (t.takeWhile isWsChar).length
  if isPre "——".data (t.drop w) then
    let u := t.drop (w + 2)
    if u.isEmpty then none
    else
      let w2 := (u.takeWhile isWsChar).length
      if w2 < u.length then some (u.drop w2) else some (u.drop (u.length - 1))
  else none

/-- Lazy scan for the group of `「(.+?)」` followed by the tail match: the
accumulated (reversed) group grows one character at a time, and at each `」`
with a non-empty group the engine first tries to close. -/
def jAfterOpen : List Char → List Char → Option (List Char × List Char)
  | _, [] => none
  | acc, c :: rest =>
    if (c == '」') && !acc.isEmpty then
      match jTailAuthor rest with
      | some a => some (acc.reverse, a)
      | none => jAfterOpen (c :: acc) rest
    else jAfterOpen (c :: acc) rest

/-- `line1.match(/「(.+?)」\s*——\s*(.+)$/)` (line 404) on the newline-free
first line: the quote and author groups of the leftmost match. -/
def jQuoteLine : List Char → Option (List Char × List Char)
  | [] => none
  | c :: rest =>
    if c == '「' then
      match jAfterOpen [] rest with
      | some qa => some qa
      | none => jQuoteLine rest
    else jQuoteLine rest

/-- Tail match `\s*(.+)$` (with `m`) after the thinking marker: greedy
whitespace (newlines included), then the rest of that line; when only
whitespace remains the engine backtracks to the last non-newline character. -/
def thinkTailJ (u : List Char) : Option (List Char) :=
  let w := (u.takeWhile isWsChar).length
  if w < u.length then some ((u.drop w).takeWhile (fun c => !(c == '\n')))
  else
    match (u.filter (fun c => !(c == '\n'))).getLast? with
    | some ch => some [ch]
    | none => none

/-- `blockContent.match(/\*\*💡 思考:\*\*\s*(.+)$/m)` (line 405): the group
of the leftmost marker occurrence whose tail matches. -/
def thinkFindJ : List Char → Option (List Char)
  | [] => none
  | c :: rest =>
    if isPre "**💡 思考:**".data (c :: rest) then
      match thinkTailJ ((c :: rest).drop ("**💡 思考:**".data).length) with
      | some g => some g
      | none => thinkFindJ rest
    else thinkFindJ rest

/-- One extracted gold-quote record (quote, author, thinking). -/
structure GoldQuote where
  quote : List Char
  author : List Char
  thinking : List Char
deriving DecidableEq, Repr

/-- The `thinking` field: the trimmed thinking-line group, or the empty
string when the marker line is absent (line 411). -/
def thinkOf (c : List Char) : List Char :=
  match thinkFindJ c with
  | some g => trimStr g
  | none => []

/-- One `[QUOTE]` block's contribution (lines 401–414): the first line of the
trimmed content must match the gold-quote regex; then the trimmed quote,
trimmed author and thinking text form the record. -/
def quoteRecOf (c : List Char) : Option GoldQuote :=
  match jQuoteLine ((splitLines (trimStr c)).headD []) with
  | none => none
  | some (q, a) => some ⟨trimStr q, trimStr a, thinkOf c⟩

/-- `parseDailyReport`'s gold-quote list (lines 399–414): one record per
matching `[QUOTE]` block, in scan order. -/
def parseGoldQuotes (content : List Char) : List GoldQuote :=
  (collectBlocks "[QUOTE]".data "[/QUOTE]".data content).filterMap quoteRecOf

/-- The `[QUOTE]` block contents of a pieces list, in order (the other block
kinds contribute nothing to the quote scan). -/
def quotesOf (ps : List (List Char × Blk)) : List (List Char) :=
  ps.filterMap (fun p =>
    match p.2 with
    | Blk.quote c => some c
    | _ => none)

/-! ### C9 — one-sentence-summary truncation

`parseDailyReport` lines 416–429: with at least one gold quote the summary is
`` `${quote} —— ${author}` ``, truncated via `substring(0, 48) + "..."` when
its `.length` exceeds 50; with no gold quote it is the first `[TOPIC]` title
when the topic regex matches and otherwise a fixed string. JS `.length` and
`substring` count UTF-16 code units, modelled by an explicit width. -/

/-- UTF-16 width of a code point (astral characters take two units). -/
def utf16Width (c : Char) : Nat := if c.toNat ≥ 65536 then 2 else 1

/-- JS `.length`: the string's length in UTF-16 code units. -/
def utf16Len (s : List Char) : Nat := (s.map utf16Width).sum

/-- JS `substring(0, n)`: the first `n` UTF-16 code units, stopping before a
surrogate pair that would be split. -/
def utf16Take (n : Nat) : List Char → List Char
  | [] => []
  | c :: rest =>
    if utf16Width c ≤ n then c :: utf16Take (n - utf16Width c) rest
    else []

/-- Lookahead `(?=\n|\[\/TOPIC\])` of the topic-title regex. -/
def titleStop (v : List Char) : Bool :=
  (match v with
   | '\n' :: _ => true
   | _ => false) || isPre "[/TOPIC]".data v

/-- Lazy group `(.+?)` before the lookahead: grow over non-newline characters
and close as soon as the lookahead holds after at least one character. -/
def titleGrow (acc : List Char) : List Char → Option (List Char)
  | [] => none
  | c :: rest =>
    if c == '\n' then none
    else if titleStop rest then some (acc.reverse ++ [c])
    else titleGrow (c :: acc) rest

/-- `\s*(.+?)(?=\n|\[\/TOPIC\])` with the engine's backtracking order:
longest whitespace run first. -/
def titleTry (u : List Char) : Nat → Option (List Char)
  | 0 => titleGrow [] u
  | i + 1 =>
    match titleGrow [] (u.drop (i + 1)) with
    | some g => some g
    | none => titleTry u i

/-- Tail `\s*\d+\.\s*(.+?)(?=\n|\[\/TOPIC\])` after a `###`: whitespace, a
non-empty digit run, a literal `'.'`, then the backtracking title scan. -/
def hashTail (r : List Char) : Option (List Char) :=
  let r1 := r.dropWhile isWsChar
  let d := (r1.takeWhile Char.isDigit).length
  if d = 0 then none
  else
    match r1.drop d with
    | '.' :: u => titleTry u ((u.takeWhile isWsChar).length)
    | _ => none

/-- `[\s\S]*?###…` after a `[TOPIC]`: the first position whose `###` tail
matches. -/
def topicScanAfter : List Char → Option (List Char)
  | [] => none
  | c :: rest =>
    if isPre "###".data (c :: rest) then
      match hashTail ((c :: rest).drop 3) with
      | some g => some g
      | none => topicScanAfter rest
    else topicScanAfter rest

/-- `content.match(/\[TOPIC\][\s\S]*?###\s*\d+\.\s*(.+?)(?=\n|\[\/TOPIC\])/)`
(line 425): the title group of the leftmost match. -/
def topicTitle : List Char → Option (List Char)
  | [] => none
  | c :: rest =>
    if isPre "[TOPIC]".data (c :: rest) then
      match topicScanAfter ((c :: rest).drop 7) with
      | some g => some g
      | none => topicTitle rest
    else topicTitle rest

/-- The fixed fallback summary (line 417). -/
def defaultSummary : List Char := "社群深度探讨与知识分享".data

/-- `oneSentenceSummary` (lines 416–429): first gold quote and author, with
the over-50-unit truncation; otherwise the trimmed first topic title or the
fixed fallback. -/
def summaryOf (goldQuotes : List GoldQuote) (content : List Char) : List Char :=
  match goldQuotes with
  | [] =>
    match topicTitle content with
    | some g => trimStr g
    | none => defaultSummary
  | gq :: _ =>
    let s := gq.quote ++ " —— ".data ++ gq.author
    if 50 < utf16Len s then utf16Take 48 s ++ "...".data else s

/-- Empty content trims to empty content. -/
theorem trimStr_nil : trimStr [] = [] := rfl

theorem isEmpty_trimStr_of_isEmpty {s : List Char} (h : s.isEmpty) :
    (trimStr s).isEmpty := by
  cases s with
  | nil => rfl
  | cons c r => simp [List.isEmpty] at h

/-- C6: `preprocessMessages` returns a subsequence of its input and keeps a
message exactly under the claim's five conditions. -/
theorem preprocess_filter_spec (messages : List ChatMessage) (targetDate : Option (List Char)) :
    preprocessMessages messages targetDate = messages.filter (keepSpec targetDate) ∧
    (preprocessMessages messages targetDate).Sublist messages := by
  have hfilter : preprocessMessages messages targetDate
      = messages.filter (keepSpec targetDate) := by
    unfold preprocessMessages
    cases targetDate with
    | none =>
      simp only
      apply List.filter_congr
      intro m _
      unfold keepSpec
      by_cases h1 : m.type = "系统消息".data
      · simp [h1]
      by_cases h2 : m.type = "撤回消息".data
      · simp [h1, h2]
      by_cases h3 : m.type = "动画表情".data ∧ ¬ (hasTok "：".data m.content = true)
      · simp [h1, h2, h3.1, h3.2]
      by_cases h4 : (trimStr m.content).isEmpty = true
      · have h4' : (m.content.isEmpty || (trimStr m.content).isEmpty) = true := by
          simp [h4]
        by_cases h3a : m.type = "动画表情".data
        · have h3b : hasTok "：".data m.content = true := by
            by_contra hc
            exact h3 ⟨h3a, hc⟩
          simp [h1, h2, h3a, h3b, h4]
        · simp [h1, h2, h3a, h4]
      · have h4a : m.content.isEmpty = false := by
          by_contra hc
          have : m.content.isEmpty = true := by
            cases hce : m.content.isEmpty
            · exact absurd hce hc
            · rfl
          exact absurd (isEmpty_trimStr_of_isEmpty this) (by simp [h4])
        by_cases h5 : hasTok "小云雀".data m.senderDisplayName = true
        · by_cases h3a : m.type = "动画表情".data
          · have h3b : hasTok "：".data m.content = true := by
              by_contra hc
              exact h3 ⟨h3a, hc⟩
            simp [h1, h2, h3a, h3b, h4, h4a, h5]
          · simp [h1, h2, h3a, h4, h4a, h5]
        · by_cases h3a : m.type = "动画表情".data
          · have h3b : hasTok "：".data m.content = true := by
              by_contra hc
              exact h3 ⟨h3a, hc⟩
            simp [h1, h2, h3a, h3b, h4, h4a, h5]
          · simp [h1, h2, h3a, h4, h4a, h5]
    | some d =>
      simp only
      rw [List.filter_filter]
      apply List.filter_congr
      intro m _
      unfold keepSpec
      by_cases h1 : m.type = "系统消息".data
      · simp [h1]
      by_cases h2 : m.type = "撤回消息".data
      · simp [h1, h2]
      by_cases h3 : m.type = "动画表情".data ∧ ¬ (hasTok "：".data m.content = true)
      · simp [h1, h2, h3.1, h3.2]
      by_cases h4 : (trimStr m.content).isEmpty = true
      · by_cases h3a : m.type = "动画表情".data
        · have h3b : hasTok "：".data m.content = true := by
            by_contra hc
            exact h3 ⟨h3a, hc⟩
          simp [h1, h2, h3a, h3b, h4]
        · simp [h1, h2, h3a, h4]
      · have h4a : m.content.isEmpty = false := by
          by_contra hc
          have : m.content.isEmpty = true := by
            cases hce : m.content.isEmpty
            · exact absurd hce hc
            · rfl
          exact absurd (isEmpty_trimStr_of_isEmpty this) (by simp [h4])
        by_cases h5 : hasTok "小云雀".data m.senderDisplayName = true
        · by_cases h3a : m.type = "动画表情".data
          · have h3b : hasTok "：".data m.content = true := by
              by_contra hc
              exact h3 ⟨h3a, hc⟩
            simp [h1, h2, h3a, h3b, h4, h4a, h5]
          · simp [h1, h2, h3a, h4, h4a, h5]
        · by_cases h3a : m.type = "动画表情".data
          · have h3b : hasTok "：".data m.content = true := by
              by_contra hc
              exact h3 ⟨h3a, hc⟩
            simp [h1, h2, h3a, h3b, h4, h4a, h5]
          · simp [h1, h2, h3a, h4, h4a, h5]
  exact ⟨hfilter, hfilter ▸ List.filter_sublist _⟩

/-! C5 supporting lemmas -/

theorem firstStopIdx_append (p : List Char) (hp : ∀ ch ∈ p, ch ≠ ':' ∧ ch ≠ '\n')
    (rest : List Char) :
    firstStopIdx (p ++ ':' :: rest) = some p.length := by
  induction p with
  | nil => simp [firstStopIdx]
  | cons c p' ih =>
    have hc := hp c (List.mem_cons_self c p')
    have hstep : (c == ':' || c == '\n') = false := by
      simp [hc.1, hc.2]
    have ih' := ih (fun ch hch => hp ch (List.mem_cons_of_mem c hch))
    simp only [List.cons_append, firstStopIdx, hstep, Bool.false_eq_true, if_false,
      List.append_eq, ih', Option.map_some', List.length_cons]

theorem firstStopIdx_spec : ∀ (c : List Char) (k : Nat), firstStopIdx c = some k →
    (∀ ch ∈ c.take k, ch ≠ ':' ∧ ch ≠ '\n') ∧
    ∃ d rest, c.drop k = d :: rest ∧ (d = ':' ∨ d = '\n') := by
  intro c
  induction c with
  | nil => intro k h; simp [firstStopIdx] at h
  | cons a r ih =>
    intro k h
    simp only [firstStopIdx] at h
    by_cases ha : (a == ':' || a == '\n') = true
    · rw [if_pos ha] at h
      injection h with h0
      subst h0
      refine ⟨by simp, a, r, by simp, ?_⟩
      rcases Bool.or_eq_true_iff.mp ha with h1 | h1
      · exact Or.inl (by simpa using h1)
      · exact Or.inr (by simpa using h1)
    · rw [if_neg ha] at h
      match hk : firstStopIdx r with
      | none => rw [hk] at h; simp at h
      | some k' =>
        rw [hk] at h
        simp only [Option.map_some', Option.some.injEq] at h
        subst h
        obtain ⟨h1, d, rest, h2, h3⟩ := ih k' hk
        have hane : a ≠ ':' ∧ a ≠ '\n' := by
          constructor
          · intro hcontra; subst hcontra; simp at ha
          · intro hcontra; subst hcontra; simp at ha
        refine ⟨?_, d, rest, by simpa using h2, h3⟩
        intro ch hch
        rcases List.mem_cons.mp (by simpa using hch) with rfl | hch'
        · exact hane
        · exact h1 ch hch'

/-- C5: sender/content parsing.  The split fires exactly when the content
begins with a non-empty, colon- and newline-free prefix followed by `":\n"`;
in that case the prefix becomes the sender username and the prefix, colon and
newline are removed; otherwise the sender is empty and the content unchanged. -/
theorem parseSender_spec (c : List Char) :
    (∀ p rest, c = p ++ ':' :: '\n' :: rest → p ≠ [] →
      (∀ ch ∈ p, ch ≠ ':' ∧ ch ≠ '\n') → parseSender c = (p, rest)) ∧
    ((¬ ∃ p rest, c = p ++ ':' :: '\n' :: rest ∧ p ≠ [] ∧
        (∀ ch ∈ p, ch ≠ ':' ∧ ch ≠ '\n')) → parseSender c = ([], c)) := by
  constructor
  · intro p rest hdecomp hp hclean
    subst hdecomp
    have hfind : firstStopIdx (p ++ ':' :: '\n' :: rest) = some p.length :=
      firstStopIdx_append p hclean ('\n' :: rest)
    have hlen : p.length ≠ 0 := by
      intro h0
      exact hp (List.length_eq_zero.mp h0)
    unfold parseSender
    rw [hfind]
    simp only [hlen, if_false]
    rw [List.drop_left, List.take_left]
    rfl
  · intro hno
    unfold parseSender
    match hfind : firstStopIdx c with
    | none => rfl
    | some k =>
      by_cases hk : k = 0
      · simp [hk]
      · simp only [hk, if_false]
        split
        · rename_i rest heq
          exfalso
          obtain ⟨hclean, _⟩ := firstStopIdx_spec c k hfind
          apply hno
          refine ⟨c.take k, rest, ?_, ?_, hclean⟩
          · conv_lhs => rw [← List.take_append_drop k c]
            rw [heq]
          · intro htake
            have hklt : k < c.length := by
              by_contra hge
              push_neg at hge
              rw [List.drop_of_length_le hge] at heq
              exact absurd heq.symm (by simp)
            have hlen := List.length_take k c
            rw [htake] at hlen
            simp only [List.length_nil] at hlen
            omega
        · rfl

/-- C5 witness: concrete instance `"abc:\nhi"` parsed through the theorem. -/
theorem parseSender_spec_witness :
    parseSender ("abc:\nhi".data) = ("abc".data, "hi".data) :=
  (parseSender_spec ("abc:\nhi".data)).1 ("abc".data) ("hi".data)
    (by decide) (by decide) (by decide)

theorem isWxidFormat_of_isEmpty {s : List Char} (h : s.isEmpty = true) :
    isWxidFormat s = true := by
  unfold isWxidFormat
  rw [if_pos h]

/-- C1: three-tier display-name resolution.  The contact name (remark, then
nickname) wins when present; otherwise the user-alias name; otherwise the
display name is the literal `群成员` exactly when the cleaned username is in
wxid format (wxid prefix, 15-plus-character word string, or empty) and the
cleaned username itself otherwise — in particular an unresolved name in wxid
format is never emitted. -/
theorem display_name_three_tiers (contacts : List Contact)
    (aliases : List (List Char × List Char)) (senderU : List Char) :
    (contactName contacts (extractCleanUsername senderU) senderU ≠ [] →
      displayNameOf contacts aliases senderU
        = contactName contacts (extractCleanUsername senderU) senderU) ∧
    (contactName contacts (extractCleanUsername senderU) senderU = [] →
      aliasName aliases (extractCleanUsername senderU) senderU ≠ [] →
      displayNameOf contacts aliases senderU
        = aliasName aliases (extractCleanUsername senderU) senderU) ∧
    (contactName contacts (extractCleanUsername senderU) senderU = [] →
      aliasName aliases (extractCleanUsername senderU) senderU = [] →
      displayNameOf contacts aliases senderU
        = (if isWxidFormat (extractCleanUsername senderU) then "群成员".data
           else extractCleanUsername senderU) ∧
      isWxidFormat (displayNameOf contacts aliases senderU) = false) := by
  set clean := extractCleanUsername senderU with hclean
  refine ⟨?_, ?_, ?_⟩
  · intro h1
    unfold displayNameOf resolveDisplayName
    rw [← hclean]
    have : (contactName contacts clean senderU).isEmpty = false := by
      cases hc : (contactName contacts clean senderU).isEmpty
      · rfl
      · exact absurd (List.isEmpty_iff.mp hc) h1
    simp [this]
  · intro h1 h2
    unfold displayNameOf resolveDisplayName
    rw [← hclean]
    have e1 : (contactName contacts clean senderU).isEmpty = true := by
      rw [h1]; rfl
    have e2 : (aliasName aliases clean senderU).isEmpty = false := by
      cases hc : (aliasName aliases clean senderU).isEmpty
      · rfl
      · exact absurd (List.isEmpty_iff.mp hc) h2
    simp [e1, e2]
  · intro h1 h2
    have e1 : (contactName contacts clean senderU).isEmpty = true := by
      rw [h1]; rfl
    have e2 : (aliasName aliases clean senderU).isEmpty = true := by
      rw [h2]; rfl
    have hbody : displayNameOf contacts aliases senderU
        = (if isWxidFormat clean then "群成员".data
           else if clean.isEmpty then "群成员".data else clean) := by
      unfold displayNameOf resolveDisplayName
      rw [← hclean]
      simp [e1, e2]
    by_cases hw : isWxidFormat clean = true
    · rw [hbody, if_pos hw]
      refine ⟨by rw [if_pos hw], by decide⟩
    · have hne : clean.isEmpty = false := by
        cases hc : clean.isEmpty
        · rfl
        · exact absurd (isWxidFormat_of_isEmpty hc) hw
      rw [hbody]
      rw [if_neg hw, if_neg (by simp [hne])]
      refine ⟨by rw [if_neg hw], ?_⟩
      cases hwc : isWxidFormat clean
      · rfl
      · exact absurd hwc hw

/-- C1 witness: with no contact and no alias, the raw wxid
`"wxid_abc123xyz9"` resolves to `群成员`, which is not in wxid format. -/
theorem display_name_three_tiers_witness :
    displayNameOf [] [] ("wxid_abc123xyz9".data) = "群成员".data ∧
    isWxidFormat (displayNameOf [] [] ("wxid_abc123xyz9".data)) = false := by
  have h := (display_name_three_tiers [] [] ("wxid_abc123xyz9".data)).2.2
    (by decide) (by decide)
  refine ⟨?_, h.2⟩
  rw [h.1]
  decide

theorem categorize_foldl (mSum dSum n : Nat) (nowMs : Int) :
    ∀ (users : List UserProfile) (acc : CatRes),
    users.foldl (categorizeStep mSum dSum n nowMs) acc =
      { cocreators := acc.cocreators ++
          (users.filter (fun u => tierOf mSum dSum n u == Tier.co)).map (·.displayName),
        heavy := acc.heavy ++
          (users.filter (fun u => tierOf mSum dSum n u == Tier.heavy)).map (·.displayName),
        medium := acc.medium ++
          (users.filter (fun u => tierOf mSum dSum n u == Tier.medium)).map (·.displayName),
        light := acc.light ++
          (users.filter (fun u => tierOf mSum dSum n u == Tier.light)).map (·.displayName),
        silent := acc.silent ++
          (users.filter (fun u => tierOf mSum dSum n u == Tier.silent)).map (·.displayName),
        churned := acc.churned ++
          (users.filter (isChurned nowMs)).map (·.displayName) } := by
  intro users
  induction users with
  | nil => intro acc; simp
  | cons u rest ih =>
    intro acc
    rw [List.foldl_cons, ih]
    cases htier : tierOf mSum dSum n u <;>
      cases hch : isChurned nowMs u <;>
        simp [categorizeStep, htier, hch, List.filter_cons]

theorem five_way_count (mSum dSum n : Nat) (users : List UserProfile) :
    ((users.filter (fun u => tierOf mSum dSum n u == Tier.co)).length +
     (users.filter (fun u => tierOf mSum dSum n u == Tier.heavy)).length +
     (users.filter (fun u => tierOf mSum dSum n u == Tier.medium)).length +
     (users.filter (fun u => tierOf mSum dSum n u == Tier.light)).length +
     (users.filter (fun u => tierOf mSum dSum n u == Tier.silent)).length)
      = users.length := by
  induction users with
  | nil => simp
  | cons u rest ih =>
    cases htier : tierOf mSum dSum n u <;>
      simp [List.filter_cons, htier] <;> omega

theorem tier_list_disjoint (mSum dSum n : Nat) (users : List UserProfile)
    (hinj : ∀ u ∈ users, ∀ v ∈ users, u.displayName = v.displayName → u = v)
    (t1 t2 : Tier) (hne : t1 ≠ t2) :
    List.Disjoint
      ((users.filter (fun u => tierOf mSum dSum n u == t1)).map (·.displayName))
      ((users.filter (fun u => tierOf mSum dSum n u == t2)).map (·.displayName)) := by
  intro x hx1 hx2
  simp only [List.mem_map, List.mem_filter, beq_iff_eq] at hx1 hx2
  obtain ⟨u, ⟨hu, hut⟩, hux⟩ := hx1
  obtain ⟨v, ⟨hv, hvt⟩, hvx⟩ := hx2
  have huv : u = v := hinj u hu v hv (hux.trans hvx.symm)
  subst huv
  exact hne (hut.symm.trans hvt ▸ rfl)

/-- C10 (amended): with the averages of the non-empty profile list fixed,
`categorizeUsers` assigns each user to exactly one of the five tier lists —
the six output lists are the per-tier display-name lists in input order, the
five tier lists jointly account for every user, and they are pairwise disjoint
whenever distinct users have distinct display names (with duplicated display
names a name may appear in two lists); `churned` is independent and holds
exactly the users with at least 5 messages last seen more than seven days
before the current date. -/
theorem categorize_partition (users : List UserProfile) (nowMs : Int)
    (_hne : users ≠ []) :
    (categorizeUsers users nowMs).cocreators =
      ((users.filter (fun u => tierOf (users.map (·.totalMessages)).sum
        (users.map (·.activeDaysSize)).sum users.length u == Tier.co)).map (·.displayName)) ∧
    (categorizeUsers users nowMs).heavy =
      ((users.filter (fun u => tierOf (users.map (·.totalMessages)).sum
        (users.map (·.activeDaysSize)).sum users.length u == Tier.heavy)).map (·.displayName)) ∧
    (categorizeUsers users nowMs).medium =
      ((users.filter (fun u => tierOf (users.map (·.totalMessages)).sum
        (users.map (·.activeDaysSize)).sum users.length u == Tier.medium)).map (·.displayName)) ∧
    (categorizeUsers users nowMs).light =
      ((users.filter (fun u => tierOf (users.map (·.totalMessages)).sum
        (users.map (·.activeDaysSize)).sum users.length u == Tier.light)).map (·.displayName)) ∧
    (categorizeUsers users nowMs).silent =
      ((users.filter (fun u => tierOf (users.map (·.totalMessages)).sum
        (users.map (·.activeDaysSize)).sum users.length u == Tier.silent)).map (·.displayName)) ∧
    (categorizeUsers users nowMs).churned =
      ((users.filter (isChurned nowMs)).map (·.displayName)) ∧
    ((categorizeUsers users nowMs).cocreators.length +
     (categorizeUsers users nowMs).heavy.length +
     (categorizeUsers users nowMs).medium.length +
     (categorizeUsers users nowMs).light.length +
     (categorizeUsers users nowMs).silent.length = users.length) ∧
    ((users.map (·.displayName)).Nodup →
      [(categorizeUsers users nowMs).cocreators,
       (categorizeUsers users nowMs).heavy,
       (categorizeUsers users nowMs).medium,
       (categorizeUsers users nowMs).light,
       (categorizeUsers users nowMs).silent].Pairwise List.Disjoint) := by
  have hfold := categorize_foldl (users.map (·.totalMessages)).sum
    (users.map (·.activeDaysSize)).sum users.length nowMs users ⟨[], [], [], [], [], []⟩
  have hc : categorizeUsers users nowMs =
      users.foldl (categorizeStep (users.map (·.totalMessages)).sum
        (users.map (·.activeDaysSize)).sum users.length nowMs) ⟨[], [], [], [], [], []⟩ := rfl
  rw [hc, hfold]
  refine ⟨by simp, by simp, by simp, by simp, by simp, by simp, ?_, ?_⟩
  · simp only [List.nil_append, List.length_map]
    exact five_way_count _ _ _ users
  · intro hnodup
    have hinj : ∀ u ∈ users, ∀ v ∈ users, u.displayName = v.displayName → u = v :=
      List.inj_on_of_nodup_map hnodup
    have hd := tier_list_disjoint (users.map (·.totalMessages)).sum
      (users.map (·.activeDaysSize)).sum users.length users hinj
    refine List.Pairwise.cons ?_ (List.Pairwise.cons ?_ (List.Pairwise.cons ?_
      (List.Pairwise.cons ?_ (List.Pairwise.cons ?_ List.Pairwise.nil))))
    · intro l hl
      fin_cases hl
      · exact hd Tier.co Tier.heavy (by decide)
      · exact hd Tier.co Tier.medium (by decide)
      · exact hd Tier.co Tier.light (by decide)
      · exact hd Tier.co Tier.silent (by decide)
    · intro l hl
      fin_cases hl
      · exact hd Tier.heavy Tier.medium (by decide)
      · exact hd Tier.heavy Tier.light (by decide)
      · exact hd Tier.heavy Tier.silent (by decide)
    · intro l hl
      fin_cases hl
      · exact hd Tier.medium Tier.light (by decide)
      · exact hd Tier.medium Tier.silent (by decide)
    · intro l hl
      fin_cases hl
      · exact hd Tier.light Tier.silent (by decide)
    · intro l hl
      exact absurd hl (List.not_mem_nil l)

/-- C10 counterexample: with two users sharing the display name `X`, the
`heavy` and `silent` lists are not disjoint, refuting the claimed pairwise
disjointness of the five lists. -/
theorem categorize_partition_counterexample :
    (categorizeUsers cxUsers 0).heavy = ["X".data] ∧
    (categorizeUsers cxUsers 0).silent = ["X".data] ∧
    ¬ ([(categorizeUsers cxUsers 0).cocreators,
        (categorizeUsers cxUsers 0).heavy,
        (categorizeUsers cxUsers 0).medium,
        (categorizeUsers cxUsers 0).light,
        (categorizeUsers cxUsers 0).silent].Pairwise List.Disjoint) := by
  refine ⟨by decide, by decide, ?_⟩
  intro hp
  have h1 : List.Disjoint (categorizeUsers cxUsers 0).heavy
      (categorizeUsers cxUsers 0).silent := by
    have := List.pairwise_cons.mp hp
    have h2 := List.pairwise_cons.mp this.2
    exact h2.1 _ (by simp)
  have hx1 : "X".data ∈ (categorizeUsers cxUsers 0).heavy := by decide
  have hx2 : "X".data ∈ (categorizeUsers cxUsers 0).silent := by decide
  exact h1 hx1 hx2

/-- C10 witness: concrete two-user run through `categorize_partition`, with
distinct display names, discharging the non-emptiness and no-duplicate
hypotheses. -/
theorem categorize_partition_witness :
    ((categorizeUsers [⟨"A".data, 10, 5, 0⟩, ⟨"B".data, 1, 1, 0⟩] 0).cocreators.length +
     (categorizeUsers [⟨"A".data, 10, 5, 0⟩, ⟨"B".data, 1, 1, 0⟩] 0).heavy.length +
     (categorizeUsers [⟨"A".data, 10, 5, 0⟩, ⟨"B".data, 1, 1, 0⟩] 0).medium.length +
     (categorizeUsers [⟨"A".data, 10, 5, 0⟩, ⟨"B".data, 1, 1, 0⟩] 0).light.length +
     (categorizeUsers [⟨"A".data, 10, 5, 0⟩, ⟨"B".data, 1, 1, 0⟩] 0).silent.length = 2) ∧
    [(categorizeUsers [⟨"A".data, 10, 5, 0⟩, ⟨"B".data, 1, 1, 0⟩] 0).cocreators,
     (categorizeUsers [⟨"A".data, 10, 5, 0⟩, ⟨"B".data, 1, 1, 0⟩] 0).heavy,
     (categorizeUsers [⟨"A".data, 10, 5, 0⟩, ⟨"B".data, 1, 1, 0⟩] 0).medium,
     (categorizeUsers [⟨"A".data, 10, 5, 0⟩, ⟨"B".data, 1, 1, 0⟩] 0).light,
     (categorizeUsers [⟨"A".data, 10, 5, 0⟩, ⟨"B".data, 1, 1, 0⟩] 0).silent].Pairwise
       List.Disjoint := by
  have h := categorize_partition [⟨"A".data, 10, 5, 0⟩, ⟨"B".data, 1, 1, 0⟩] 0 (by simp)
  exact ⟨h.2.2.2.2.2.2.1, h.2.2.2.2.2.2.2 (by decide)⟩

theorem mem_insertByKey (key : α → Nat) (a b : α) (l : List α) :
    b ∈ insertByKey key a l ↔ b = a ∨ b ∈ l := by
  induction l with
  | nil => simp [insertByKey]
  | cons c cs ih =>
    unfold insertByKey
    by_cases h : key a ≤ key c
    · simp [h]
    · simp only [h, if_false, List.mem_cons, ih]
      tauto

theorem mem_sortByKey (key : α → Nat) (a : α) (l : List α) :
    a ∈ sortByKey key l ↔ a ∈ l := by
  induction l with
  | nil => simp [sortByKey]
  | cons c cs ih => simp [sortByKey, mem_insertByKey, ih]

theorem pairwise_insertByKey (key : α → Nat) (a : α) (l : List α)
    (h : l.Pairwise (fun x y => key x ≤ key y)) :
    (insertByKey key a l).Pairwise (fun x y => key x ≤ key y) := by
  induction l with
  | nil => simp [insertByKey]
  | cons b bs ih =>
    rcases List.pairwise_cons.mp h with ⟨hb, hbs⟩
    by_cases hab : key a ≤ key b
    · unfold insertByKey
      rw [if_pos hab]
      refine List.Pairwise.cons ?_ h
      intro y hy
      rcases List.mem_cons.mp hy with rfl | hy'
      · exact hab
      · exact le_trans hab (hb y hy')
    · unfold insertByKey
      rw [if_neg hab]
      refine List.Pairwise.cons ?_ (ih hbs)
      intro y hy
      rcases (mem_insertByKey key a y bs).mp hy with rfl | hy'
      · omega
      · exact hb y hy'

theorem pairwise_sortByKey (key : α → Nat) (l : List α) :
    (sortByKey key l).Pairwise (fun x y => key x ≤ key y) := by
  induction l with
  | nil => simp [sortByKey]
  | cons a as ih => exact pairwise_insertByKey key a _ ih

/-- C3 (amended): extraction keeps exactly the messages of the 24-hour window
and no others; extract-date.ts output is globally ascending by creation time;
extract-from-db output is the in-order concatenation of per-table ascending
runs (each table's contribution is ascending), filtered to the same window
expressed in milliseconds. -/
theorem extraction_window_spec (table : List MsgRow) (startTs : Nat)
    (tables : List (List DbRow)) (group : List Char) (startMs : Nat) :
    (∀ r ∈ extractDateRows table startTs,
        startTs ≤ r.create_time ∧ r.create_time < startTs + 86400) ∧
    (∀ r ∈ table, startTs ≤ r.create_time → r.create_time < startTs + 86400 →
        r ∈ extractDateRows table startTs) ∧
    (extractDateRows table startTs).Pairwise (fun a b => a.create_time ≤ b.create_time) ∧
    (∀ r ∈ extractFromDbMessages tables group startMs,
        (startMs ≤ r.createTime ∧ r.createTime < startMs + 86400000) ∧ r.talker = group) ∧
    (∀ t ∈ tables, ∀ r ∈ t, r.talker = group → startMs ≤ r.createTime →
        r.createTime < startMs + 86400000 → r ∈ extractFromDbMessages tables group startMs) ∧
    (extractFromDbMessages tables group startMs =
      (tables.map (fun t =>
        filterWindowMs (sortByKey (·.createTime) (t.filter (fun r => r.talker == group)))
          startMs)).flatten ∧
     ∀ t ∈ tables,
       (filterWindowMs (sortByKey (·.createTime) (t.filter (fun r => r.talker == group)))
          startMs).Pairwise (fun a b => a.createTime ≤ b.createTime)) := by
  refine ⟨?_, ?_, ?_, ?_, ?_, ?_, ?_⟩
  · intro r hr
    rw [extractDateRows, mem_sortByKey] at hr
    simpa using List.of_mem_filter hr
  · intro r hr h1 h2
    rw [extractDateRows, mem_sortByKey]
    exact List.mem_filter.mpr ⟨hr, by simp [h1, h2]⟩
  · exact pairwise_sortByKey _ _
  · intro r hr
    unfold extractFromDbMessages filterWindowMs at hr
    have hcond := List.of_mem_filter hr
    have hmem := List.mem_of_mem_filter hr
    unfold scanTables at hmem
    simp only [List.mem_flatten, List.mem_map] at hmem
    obtain ⟨l, ⟨t, _ht, rfl⟩, hl⟩ := hmem
    rw [mem_sortByKey] at hl
    have htalker := List.of_mem_filter hl
    refine ⟨by simpa using hcond, by simpa using htalker⟩
  · intro t ht r hr h1 h2 h3
    unfold extractFromDbMessages filterWindowMs
    refine List.mem_filter.mpr ⟨?_, by simp [h2, h3]⟩
    unfold scanTables
    simp only [List.mem_flatten, List.mem_map]
    refine ⟨sortByKey (·.createTime) (t.filter (fun x => x.talker == group)), ⟨t, ht, rfl⟩, ?_⟩
    rw [mem_sortByKey]
    exact List.mem_filter.mpr ⟨hr, by simp [h1]⟩
  · unfold extractFromDbMessages scanTables filterWindowMs
    induction tables with
    | nil => simp
    | cons t ts ih => simp [List.filter_append, ih]
  · intro t _ht
    unfold filterWindowMs
    exact List.Pairwise.filter _ (pairwise_sortByKey _ _)

/-- C3 witness: a one-row table run through the theorem at a concrete date
window, discharging the membership hypotheses. -/
theorem extraction_window_spec_witness :
    (⟨500, "m".data⟩ : MsgRow) ∈ extractDateRows [⟨500, "m".data⟩] 0 ∧
    (⟨1000, TARGET_GROUP, "a".data⟩ : DbRow) ∈
      extractFromDbMessages [[⟨1000, TARGET_GROUP, "a".data⟩]] TARGET_GROUP 0 := by
  have h := extraction_window_spec [⟨500, "m".data⟩] 0
    [[⟨1000, TARGET_GROUP, "a".data⟩]] TARGET_GROUP 0
  refine ⟨h.2.1 ⟨500, "m".data⟩ (by decide) (by decide) (by decide), ?_⟩
  exact h.2.2.2.2.1 [⟨1000, TARGET_GROUP, "a".data⟩] (by decide)
    ⟨1000, TARGET_GROUP, "a".data⟩ (by decide) (by decide) (by decide) (by decide)

/-- C3 counterexample: with two discovered tables each holding one in-window
message for the target group, the extract-from-db output is the table-order
concatenation `[t=2000, t=1000]`, which is not ascending by creation time —
refuting the claimed global ascending order. -/
theorem extraction_window_counterexample :
    extractFromDbMessages
        [[⟨2000, TARGET_GROUP, "a".data⟩], [⟨1000, TARGET_GROUP, "b".data⟩]]
        TARGET_GROUP 0
      = [⟨2000, TARGET_GROUP, "a".data⟩, ⟨1000, TARGET_GROUP, "b".data⟩] ∧
    (∀ r ∈ extractFromDbMessages
        [[⟨2000, TARGET_GROUP, "a".data⟩], [⟨1000, TARGET_GROUP, "b".data⟩]]
        TARGET_GROUP 0, r.createTime < 86400000) ∧
    ¬ (extractFromDbMessages
        [[⟨2000, TARGET_GROUP, "a".data⟩], [⟨1000, TARGET_GROUP, "b".data⟩]]
        TARGET_GROUP 0).Pairwise (fun a b => a.createTime ≤ b.createTime) := by
  refine ⟨by decide, by decide, ?_⟩
  intro hp
  rw [show extractFromDbMessages
        [[⟨2000, TARGET_GROUP, "a".data⟩], [⟨1000, TARGET_GROUP, "b".data⟩]]
        TARGET_GROUP 0
      = [⟨2000, TARGET_GROUP, "a".data⟩, ⟨1000, TARGET_GROUP, "b".data⟩] from by decide] at hp
  exact absurd ((List.pairwise_cons.mp hp).1 ⟨1000, TARGET_GROUP, "b".data⟩ (by decide))
    (by decide)

/-- C4 (amended): extract-from-db discovers exactly the schema tables whose
type is `table` and whose name matches `LIKE 'Msg_%'` — i.e. case-folds to
`msg` plus at least one further character (the SQL `_` is a single-character
wildcard, not a literal underscore) — and scans each for rows whose talker is
the target group; extract-date.ts instead reads only the hardcoded
`GROUP_TABLE` (its result depends on no other table of the database). -/
theorem table_discovery_spec (schema : List SchemaRow) :
    (∀ name, name ∈ discoverTables schema ↔
      ∃ r ∈ schema, r.name = name ∧ r.type = "table".data ∧
        ∃ c rest, name.map Char.toLower = 'm' :: 's' :: 'g' :: c :: rest) ∧
    (∀ (tables : List (List DbRow)) (group : List Char),
      ∀ r ∈ scanTables tables group, r.talker = group) ∧
    (∀ (db db' : List (List Char × List MsgRow)),
      db.find? (fun p => p.1 == GROUP_TABLE) = db'.find? (fun p => p.1 == GROUP_TABLE) →
      extractDateTableRows db = extractDateTableRows db') := by
  refine ⟨?_, ?_, ?_⟩
  · intro name
    unfold discoverTables
    simp only [List.mem_map, List.mem_filter, Bool.and_eq_true, beq_iff_eq]
    constructor
    · rintro ⟨r, ⟨hr, htype, hlike⟩, rfl⟩
      refine ⟨r, hr, rfl, htype, ?_⟩
      unfold likeMsgPattern at hlike
      split at hlike
      · rename_i c rest heq
        exact ⟨c, rest, heq⟩
      · exact absurd hlike (by simp)
    · rintro ⟨r, hr, rfl, htype, c, rest, heq⟩
      refine ⟨r, ⟨hr, htype, ?_⟩, rfl⟩
      unfold likeMsgPattern
      split
      · rfl
      · rename_i hno
        exact absurd heq (hno c rest)
  · intro tables group r hr
    unfold scanTables at hr
    simp only [List.mem_flatten, List.mem_map] at hr
    obtain ⟨l, ⟨t, _ht, rfl⟩, hl⟩ := hr
    rw [mem_sortByKey] at hl
    simpa using List.of_mem_filter hl
  · intro db db' hsame
    unfold extractDateTableRows
    rw [hsame]

/-- C4 witness: concrete discovery on a two-table schema through the theorem:
`Msg_x1` is discovered, `contact` is not. -/
theorem table_discovery_spec_witness :
    "Msg_x1".data ∈ discoverTables
      [⟨"Msg_x1".data, "table".data⟩, ⟨"contact".data, "table".data⟩] ∧
    ¬ ("contact".data ∈ discoverTables
      [⟨"Msg_x1".data, "table".data⟩, ⟨"contact".data, "table".data⟩]) := by
  have h := (table_discovery_spec
    [⟨"Msg_x1".data, "table".data⟩, ⟨"contact".data, "table".data⟩]).1
  constructor
  · exact (h "Msg_x1".data).mpr
      ⟨⟨"Msg_x1".data, "table".data⟩, by decide, rfl, rfl, '_', "x1".data, by decide⟩
  · intro hmem
    obtain ⟨r, _hr, _hname, _htype, c, rest, heq⟩ := (h "contact".data).mp hmem
    have : List.map Char.toLower "contact".data = 'c' :: 'o' :: 'n' :: 't' :: 'a' :: 'c' :: 't' :: [] := by
      decide
    rw [this] at heq
    injection heq with h1 _
    exact absurd h1 (by decide)

/-- C4 counterexample: the claim fails on the code in two ways.  (1) The
extraction step of extract-date.ts reads the hardcoded `GROUP_TABLE`: on a
database whose only table is `Msg_other` (with one row) it reads nothing,
while schema discovery would select `Msg_other`.  (2) `LIKE 'Msg_%'` is not
"begins with `Msg_`": the name `MsgAttach` matches the pattern yet does not
begin with `Msg_`. -/
theorem table_discovery_counterexample :
    extractDateTableRows [("Msg_other".data, [⟨100, "x".data⟩])] = [] ∧
    ("Msg_other".data ∈ discoverTables [⟨"Msg_other".data, "table".data⟩]) ∧
    likeMsgPattern "MsgAttach".data = true ∧
    isPre "Msg_".data "MsgAttach".data = false := by
  refine ⟨by decide, by decide, by decide, by decide⟩

/-! ### C2 — generateHtmlReport (analyze-wechat.ts lines 461–732)

`html.replace(/\[STATS\]([\s\S]*?)\[\/STATS\]/g, cb)` and its `[TOPIC]` /
`[QUOTE]` analogues are modelled by `replaceBlocks`: find the leftmost opening
tag, the earliest closing tag after it (the lazy `[\s\S]*?`), replace, and
continue scanning after the consumed match — exactly the JS `replace`-with-`g`
behaviour (replacement text is not rescanned). -/

theorem isPre_length : ∀ {p s : List Char}, isPre p s = true → p.length ≤ s.length := by
  intro p
  induction p with
  | nil => intro s _; simp
  | cons a as ih =>
    intro s h
    cases s with
    | nil => simp [isPre] at h
    | cons b bs =>
      simp only [isPre, Bool.and_eq_true] at h
      have := ih h.2
      simp only [List.length_cons]
      omega

theorem findTok_le : ∀ {s p : List Char} {i : Nat}, findTok? p s = some i →
    i + p.length ≤ s.length := by
  intro s
  induction s with
  | nil =>
    intro p i h
    unfold findTok? at h
    by_cases hp : isPre p [] = true
    · rw [if_pos hp] at h
      injection h with h0
      subst h0
      simpa using isPre_length hp
    · rw [if_neg hp] at h
      exact absurd h (by simp)
  | cons c rest ih =>
    intro p i h
    unfold findTok? at h
    by_cases hp : isPre p (c :: rest) = true
    · rw [if_pos hp] at h
      injection h with h0
      subst h0
      simpa using isPre_length hp
    · rw [if_neg hp] at h
      match hk : findTok? p rest with
      | none => rw [hk] at h; exact absurd h (by simp)
      | some k =>
        rw [hk] at h
        simp only [Option.map_some', Option.some.injEq] at h
        subst h
        have := ih hk
        simp only [List.length_cons]
        omega

theorem strongClose_length : ∀ {s mid after : List Char},
    strongClose s = some (mid, after) → after.length ≤ s.length := by
  intro s
  induction s with
  | nil => intro mid after h; simp [strongClose] at h
  | cons c r ih =>
    intro mid after h
    unfold strongClose at h
    by_cases h1 : (c == '\n') = true
    · rw [if_pos h1] at h; exact absurd h (by simp)
    · rw [if_neg h1] at h
      by_cases h2 : (c == '*' && isPre "*".data r) = true
      · rw [if_pos h2] at h
        injection h with h
        injection h with _ha hb
        subst hb
        simp only [List.length_drop, List.length_cons]
        omega
      · rw [if_neg h2] at h
        match hm : strongClose r with
        | some (m', a') =>
          rw [hm] at h
          injection h with h
          injection h with _ha hb
          subst hb
          have := ih hm
          simp only [List.length_cons]
          omega
        | none => rw [hm] at h; exact absurd h (by simp)

theorem emClose_length : ∀ {s mid after : List Char},
    emClose s = some (mid, after) → after.length ≤ s.length := by
  intro s
  induction s with
  | nil => intro mid after h; simp [emClose] at h
  | cons c r ih =>
    intro mid after h
    unfold emClose at h
    by_cases h1 : (c == '\n') = true
    · rw [if_pos h1] at h; exact absurd h (by simp)
    · rw [if_neg h1] at h
      by_cases h2 : (c == '*') = true
      · rw [if_pos h2] at h
        injection h with h
        injection h with _ha hb
        subst hb
        simp
      · rw [if_neg h2] at h
        match hm : emClose r with
        | some (m', a') =>
          rw [hm] at h
          injection h with h
          injection h with _ha hb
          subst hb
          have := ih hm
          simp only [List.length_cons]
          omega
        | none => rw [hm] at h; exact absurd h (by simp)

theorem isPre_iff_exists {p s : List Char} : isPre p s = true ↔ ∃ w, s = p ++ w := by
  induction p generalizing s with
  | nil => simp [isPre]
  | cons a as ih =>
    cases s with
    | nil =>
      simp only [isPre, List.append_eq]
      constructor
      · intro h; exact absurd h (by simp)
      · rintro ⟨w, hw⟩; exact absurd hw (by simp)
    | cons b bs =>
      simp only [isPre, Bool.and_eq_true, beq_iff_eq, ih]
      constructor
      · rintro ⟨rfl, w, rfl⟩; exact ⟨w, rfl⟩
      · rintro ⟨w, hw⟩
        injection hw with h1 h2
        exact ⟨h1.symm, w, h2⟩

theorem findTok_decomp : ∀ {s p : List Char} {i : Nat}, findTok? p s = some i →
    ∃ u w, s = u ++ p ++ w ∧ u.length = i := by
  intro s
  induction s with
  | nil =>
    intro p i h
    unfold findTok? at h
    by_cases hp : isPre p [] = true
    · rw [if_pos hp] at h
      injection h with h0
      subst h0
      obtain ⟨w, hw⟩ := isPre_iff_exists.mp hp
      exact ⟨[], w, by simpa using hw, rfl⟩
    · rw [if_neg hp] at h; exact absurd h (by simp)
  | cons c rest ih =>
    intro p i h
    unfold findTok? at h
    by_cases hp : isPre p (c :: rest) = true
    · rw [if_pos hp] at h
      injection h with h0
      subst h0
      obtain ⟨w, hw⟩ := isPre_iff_exists.mp hp
      exact ⟨[], w, by simpa using hw, rfl⟩
    · rw [if_neg hp] at h
      match hk : findTok? p rest with
      | none => rw [hk] at h; exact absurd h (by simp)
      | some k =>
        rw [hk] at h
        simp only [Option.map_some', Option.some.injEq] at h
        subst h
        obtain ⟨u, w, hw, hl⟩ := ih hk
        exact ⟨c :: u, w, by simp [hw], by simp [hl]⟩

theorem hasPair_imp {opn cls s : List Char} (h : hasPair opn cls s = true) :
    HasPairP opn cls s := by
  unfold hasPair at h
  match hfind : findTok? opn s with
  | none => rw [hfind] at h; exact absurd h (by simp)
  | some i =>
    rw [hfind] at h
    have h' : (findTok? cls (s.drop (i + opn.length))).isSome = true := h
    match hcls : findTok? cls (s.drop (i + opn.length)) with
    | none => rw [hcls] at h'; exact absurd h' (by simp)
    | some j =>
      obtain ⟨u1, w1, hw1, hl1⟩ := findTok_decomp hfind
      obtain ⟨u2, w2, hw2, _⟩ := findTok_decomp hcls
      have hdrop : s.drop (i + opn.length) = w1 := by
        rw [hw1, ← hl1, List.append_assoc]
        rw [show u1.length + opn.length = (u1 ++ opn).length by simp]
        rw [← List.append_assoc, List.drop_left]
      rw [hdrop] at hw2
      exact ⟨u1, u2, w2, by rw [hw1, hw2]; simp⟩

theorem hasPairP_append_left {opn cls s : List Char} (a : List Char)
    (h : HasPairP opn cls s) : HasPairP opn cls (a ++ s) := by
  obtain ⟨u, v, w, rfl⟩ := h
  exact ⟨a ++ u, v, w, by simp⟩

theorem hasPairP_append_right {opn cls s : List Char} (b : List Char)
    (h : HasPairP opn cls s) : HasPairP opn cls (s ++ b) := by
  obtain ⟨u, v, w, rfl⟩ := h
  exact ⟨u, v, w ++ b, by simp⟩

set_option maxRecDepth 8000 in
/-- C2 counterexample: on the markdown
`"[STATS]\nx: [STATS]\ny: [/STATS]\n[/STATS]"` the lazy block regex consumes
up to the first `[/STATS]`, so the replacement's stat value carries the nested
`[STATS]` and the trailing `[/STATS]` stays in the text: the returned HTML
still contains a properly-paired `[STATS]` … `[/STATS]` pair. -/
theorem generateHtml_counterexample :
    HasPairP "[STATS]".data "[/STATS]".data
      (generateHtmlReport "[STATS]\nx: [STATS]\ny: [/STATS]\n[/STATS]".data
        "2026-01-16".data) := by
  have hinner : hasPair "[STATS]".data "[/STATS]".data
      (mdPasses (tagPasses "[STATS]\nx: [STATS]\ny: [/STATS]\n[/STATS]".data)) = true := by
    decide
  have h1 := hasPair_imp hinner
  have h2 := hasPairP_append_right htmlWrapC h1
  have h3 := hasPairP_append_left (htmlWrapA ++ "2026-01-16".data ++ htmlWrapB) h2
  unfold generateHtmlReport
  obtain ⟨u, v, w, hw⟩ := h3
  exact ⟨u, v, w, by rw [← hw]; simp⟩

/-! Skip/match lemmas for the block-replacement scan, used to characterise
`generateHtmlReport` on well-formed markdown. -/

theorem isPre_append_self (p x : List Char) : isPre p (p ++ x) = true := by
  induction p with
  | nil => rfl
  | cons a as ih => simp [isPre, ih]

theorem findTok_shift (p : List Char) : ∀ (a t : List Char),
    (∀ i < a.length, isPre p (List.drop i (a ++ t)) = false) →
    findTok? p (a ++ t) = (findTok? p t).map (· + a.length) := by
  intro a
  induction a with
  | nil =>
    intro t _
    cases hf : findTok? p t <;> simp [hf]
  | cons c a' ih =>
    intro t h
    have h0 : isPre p (c :: (a' ++ t)) = false := by
      have := h 0 (by simp)
      simpa using this
    show findTok? p (c :: (a' ++ t)) = _
    rw [show findTok? p (c :: (a' ++ t)) = (findTok? p (a' ++ t)).map (· + 1) from by
      simp only [findTok?]
      rw [if_neg (by simp [h0])]]
    rw [ih t (fun i hi => by
      have := h (i + 1) (by simp; omega)
      simpa using this)]
    cases hf : findTok? p t with
    | none => simp [hf]
    | some v => simp [hf]; omega

theorem skip_nobr {p : List Char} (p' : List Char) (hp : p = '[' :: p')
    {a : List Char} (ha : noBr a = true) (t : List Char) :
    ∀ i < a.length, isPre p (List.drop i (a ++ t)) = false := by
  intro i hi
  have hlt : i < (a ++ t).length := by simp; omega
  rw [List.drop_eq_getElem_cons hlt]
  have hget : (a ++ t)[i] = a[i] := List.getElem_append_left hi
  have hne : ¬ (a[i] = '[') := by
    have := List.all_eq_true.mp ha (a[i]) (List.getElem_mem hi)
    simpa using this
  subst hp
  have hb : ('[' == a[i]) = false := by
    simp only [beq_eq_false_iff_ne, ne_eq]
    intro hcontra
    exact hne hcontra.symm
  simp [isPre, hget, hb]

theorem skip_append {p : List Char} {a b t : List Char}
    (ha : ∀ i < a.length, isPre p (List.drop i (a ++ (b ++ t))) = false)
    (hb : ∀ i < b.length, isPre p (List.drop i (b ++ t)) = false) :
    ∀ i < (a ++ b).length, isPre p (List.drop i ((a ++ b) ++ t)) = false := by
  intro i hi
  rw [List.append_assoc]
  by_cases hia : i < a.length
  · exact ha i hia
  · have : i = a.length + (i - a.length) := by omega
    rw [this, List.drop_append]
    have hib : i - a.length < b.length := by simp at hi; omega
    exact hb (i - a.length) hib

theorem findTok_none_of_noBr {p : List Char} (p' : List Char) (hp : p = '[' :: p')
    {s : List Char} (hs : noBr s = true) : findTok? p s = none := by
  subst hp
  induction s with
  | nil => rfl
  | cons c rest ih =>
    have hc : ¬ (c = '[') := by
      have := List.all_eq_true.mp hs c (by simp)
      simpa using this
    have hrest : noBr rest = true := by
      simp only [noBr, List.all_cons, Bool.and_eq_true] at hs
      exact hs.2
    have hb : ('[' == c) = false := by
      simp only [beq_eq_false_iff_ne, ne_eq]
      intro hcontra
      exact hc hcontra.symm
    unfold findTok?
    rw [if_neg (by simp [isPre, hb])]
    rw [ih hrest]
    rfl

theorem replaceGo_none1 {opn cls : List Char} {f : List Char → List Char}
    {fuel : Nat} {s : List Char} (h : findTok? opn s = none) :
    replaceGo opn cls f (fuel + 1) s = s := by
  unfold replaceGo
  split
  · rfl
  · rename_i i heq
    rw [h] at heq
    exact absurd heq (by simp)

theorem replaceGo_none2 {opn cls : List Char} {f : List Char → List Char}
    {fuel : Nat} {s : List Char} {i : Nat} (hi : findTok? opn s = some i)
    (hj : findTok? cls (s.drop (i + opn.length)) = none) :
    replaceGo opn cls f (fuel + 1) s = s := by
  unfold replaceGo
  split
  · rfl
  · rename_i i' heq
    rw [hi] at heq
    injection heq with h
    subst h
    split
    · rfl
    · rename_i j heq2
      rw [hj] at heq2
      exact absurd heq2 (by simp)

theorem replaceGo_succ_eq {opn cls : List Char} {f : List Char → List Char}
    {fuel : Nat} {s : List Char} {i j : Nat} (hi : findTok? opn s = some i)
    (hj : findTok? cls (s.drop (i + opn.length)) = some j) :
    replaceGo opn cls f (fuel + 1) s
      = s.take i ++ f ((s.drop (i + opn.length)).take j) ++
          replaceGo opn cls f fuel ((s.drop (i + opn.length)).drop (j + cls.length)) := by
  conv_lhs => unfold replaceGo
  split
  · rename_i heq
    rw [hi] at heq
    exact absurd heq (by simp)
  · rename_i i' heq
    rw [hi] at heq
    injection heq with h
    subst h
    split
    · rename_i heq2
      rw [hj] at heq2
      exact absurd heq2 (by simp)
    · rename_i j' heq2
      rw [hj] at heq2
      injection heq2 with h2
      subst h2
      rfl

theorem replaceGo_skip (opn cls : List Char) (f : List Char → List Char) :
    ∀ (fuel : Nat) (a t : List Char),
    (∀ i < a.length, isPre opn (List.drop i (a ++ t)) = false) →
    replaceGo opn cls f fuel (a ++ t) = a ++ replaceGo opn cls f fuel t := by
  intro fuel
  cases fuel with
  | zero => intro a t _; rfl
  | succ m =>
    intro a t h
    have hshift := findTok_shift opn a t h
    cases hf : findTok? opn t with
    | none =>
      rw [hf] at hshift
      simp only [Option.map_none'] at hshift
      rw [replaceGo_none1 hshift, replaceGo_none1 hf]
    | some j =>
      rw [hf] at hshift
      simp only [Option.map_some'] at hshift
      have hdrop : (a ++ t).drop (j + a.length + opn.length)
          = t.drop (j + opn.length) := by
        rw [show j + a.length + opn.length = a.length + (j + opn.length) by omega]
        exact List.drop_append _
      cases hc : findTok? cls (t.drop (j + opn.length)) with
      | none =>
        rw [replaceGo_none2 hshift (by rw [hdrop]; exact hc),
          replaceGo_none2 hf hc]
      | some k =>
        rw [replaceGo_succ_eq hshift (by rw [hdrop]; exact hc),
          replaceGo_succ_eq hf hc]
        have htake : (a ++ t).take (j + a.length) = a ++ t.take j := by
          rw [show j + a.length = a.length + j by omega]
          exact List.take_append _
        rw [htake, hdrop]
        simp [List.append_assoc]

theorem findTok_self (p x : List Char) (p0 : Char) (p' : List Char) (hp : p = p0 :: p') :
    findTok? p (p ++ x) = some 0 := by
  have hpre : isPre p (p ++ x) = true := isPre_append_self p x
  subst hp
  rw [List.cons_append]
  unfold findTok?
  rw [if_pos (by rw [← List.cons_append]; exact hpre)]

theorem replaceGo_match (opn cls : List Char) (f : List Char → List Char)
    (fuel : Nat) (c t : List Char) (o' : List Char) (hopn : opn = '[' :: o')
    (c' : List Char) (hcls : cls = '[' :: c')
    (hc : ∀ i < c.length, isPre cls (List.drop i (c ++ (cls ++ t))) = false) :
    replaceGo opn cls f (fuel + 1) (opn ++ (c ++ (cls ++ t)))
      = f c ++ replaceGo opn cls f fuel t := by
  have hfind : findTok? opn (opn ++ (c ++ (cls ++ t))) = some 0 :=
    findTok_self opn _ '[' o' hopn
  have hdrop0 : (opn ++ (c ++ (cls ++ t))).drop (0 + opn.length) = c ++ (cls ++ t) := by
    rw [Nat.zero_add]
    exact List.drop_left _ _
  have hfindc : findTok? cls (c ++ (cls ++ t)) = some c.length := by
    rw [findTok_shift cls c (cls ++ t) hc]
    rw [findTok_self cls t '[' c' hcls]
    simp
  have htakec : (c ++ (cls ++ t)).take c.length = c := by
    rw [show c.length = c.length + 0 by omega, List.take_append]
    simp
  have hdropc : (c ++ (cls ++ t)).drop (c.length + cls.length) = t := by
    rw [List.drop_append]
    exact List.drop_left _ _
  rw [replaceGo_succ_eq hfind (by rw [hdrop0]; exact hfindc)]
  rw [hdrop0, htakec, hdropc]
  simp

theorem isPre_false_head {p0 c : Char} {p' rest : List Char} (h : ¬ (p0 = c)) :
    isPre (p0 :: p') (c :: rest) = false := by
  simp only [isPre, Bool.and_eq_false_iff]
  left
  simp only [beq_eq_false_iff_ne, ne_eq]
  exact h

theorem isPre_false_second {p0 p1 c1 : Char} {p' rest : List Char} (h : ¬ (p1 = c1)) :
    isPre (p0 :: p1 :: p') (p0 :: c1 :: rest) = false := by
  simp only [isPre, Bool.and_eq_false_iff]
  right
  left
  simp only [beq_eq_false_iff_ne, ne_eq]
  exact h

/-- `[STATS]` never matches inside a `[TOPIC]` delimiter. -/
theorem skip_so_to (t : List Char) :
    ∀ i < 7, isPre "[STATS]".data (List.drop i ("[TOPIC]".data ++ t)) = false := by
  intro i hi
  interval_cases i <;>
    first
      | exact isPre_false_second (by decide)
      | exact isPre_false_head (by decide)

/-- `[STATS]` never matches inside a `[/TOPIC]` delimiter. -/
theorem skip_so_tc (t : List Char) :
    ∀ i < 8, isPre "[STATS]".data (List.drop i ("[/TOPIC]".data ++ t)) = false := by
  intro i hi
  interval_cases i <;>
    first
      | exact isPre_false_second (by decide)
      | exact isPre_false_head (by decide)

/-- `[STATS]` never matches inside a `[QUOTE]` delimiter. -/
theorem skip_so_qo (t : List Char) :
    ∀ i < 7, isPre "[STATS]".data (List.drop i ("[QUOTE]".data ++ t)) = false := by
  intro i hi
  interval_cases i <;>
    first
      | exact isPre_false_second (by decide)
      | exact isPre_false_head (by decide)

/-- `[STATS]` never matches inside a `[/QUOTE]` delimiter. -/
theorem skip_so_qc (t : List Char) :
    ∀ i < 8, isPre "[STATS]".data (List.drop i ("[/QUOTE]".data ++ t)) = false := by
  intro i hi
  interval_cases i <;>
    first
      | exact isPre_false_second (by decide)
      | exact isPre_false_head (by decide)

/-- `[TOPIC]` never matches inside a `[QUOTE]` delimiter. -/
theorem skip_to_qo (t : List Char) :
    ∀ i < 7, isPre "[TOPIC]".data (List.drop i ("[QUOTE]".data ++ t)) = false := by
  intro i hi
  interval_cases i <;>
    first
      | exact isPre_false_second (by decide)
      | exact isPre_false_head (by decide)

/-- `[TOPIC]` never matches inside a `[/QUOTE]` delimiter. -/
theorem skip_to_qc (t : List Char) :
    ∀ i < 8, isPre "[TOPIC]".data (List.drop i ("[/QUOTE]".data ++ t)) = false := by
  intro i hi
  interval_cases i <;>
    first
      | exact isPre_false_second (by decide)
      | exact isPre_false_head (by decide)

/-- `[QUOTE]` never matches inside a `[STATS]` delimiter. -/
theorem skip_q_so (t : List Char) :
    ∀ i < 7, isPre "[QUOTE]".data (List.drop i ("[STATS]".data ++ t)) = false := by
  intro i hi
  interval_cases i <;>
    first
      | exact isPre_false_second (by decide)
      | exact isPre_false_head (by decide)

/-- `[QUOTE]` never matches inside a `[/STATS]` delimiter. -/
theorem skip_q_sc (t : List Char) :
    ∀ i < 8, isPre "[QUOTE]".data (List.drop i ("[/STATS]".data ++ t)) = false := by
  intro i hi
  interval_cases i <;>
    first
      | exact isPre_false_second (by decide)
      | exact isPre_false_head (by decide)

/-- `[QUOTE]` never matches inside a `[TOPIC]` delimiter. -/
theorem skip_q_to (t : List Char) :
    ∀ i < 7, isPre "[QUOTE]".data (List.drop i ("[TOPIC]".data ++ t)) = false := by
  intro i hi
  interval_cases i <;>
    first
      | exact isPre_false_second (by decide)
      | exact isPre_false_head (by decide)

/-- `[QUOTE]` never matches inside a `[/TOPIC]` delimiter. -/
theorem skip_q_tc (t : List Char) :
    ∀ i < 8, isPre "[QUOTE]".data (List.drop i ("[/TOPIC]".data ++ t)) = false := by
  intro i hi
  interval_cases i <;>
    first
      | exact isPre_false_second (by decide)
      | exact isPre_false_head (by decide)

theorem replaceGo_of_none {opn cls : List Char} {f : List Char → List Char}
    (fuel : Nat) {s : List Char} (h : findTok? opn s = none) :
    replaceGo opn cls f fuel s = s := by
  cases fuel with
  | zero => rfl
  | succ m => exact replaceGo_none1 h

theorem renderWith_length_blocks (g : Blk → List Char)
    (hg : ∀ b, 1 ≤ (g b).length) :
    ∀ (ps : List (List Char × Blk)) (fin : List Char),
    ps.length ≤ (renderWith g ps fin).length := by
  intro ps
  induction ps with
  | nil => intro fin; simp
  | cons p rest ih =>
    intro fin
    obtain ⟨seg, b⟩ := p
    have := ih fin
    have := hg b
    simp only [renderWith, List.length_append, List.length_cons]
    omega

theorem renderBlk_length (b : Blk) : 1 ≤ (renderBlk b).length := by
  cases b <;> simp [renderBlk]

/-- Pass 1: on well-formed markdown the `[STATS]` scan replaces exactly the
`[STATS]` blocks and leaves everything else unchanged. -/
theorem statsGo_pieces : ∀ (ps : List (List Char × Blk)) (fin : List Char) (fuel : Nat),
    ps.length ≤ fuel → wfPieces ps fin = true →
    replaceGo "[STATS]".data "[/STATS]".data statsCb fuel (renderWith renderBlk ps fin)
      = renderWith blkOut1 ps fin := by
  intro ps
  induction ps with
  | nil =>
    intro fin fuel _ hwf
    have hfin : noBr fin = true := by
      simp only [wfPieces, List.all_nil, Bool.true_and] at hwf
      exact hwf
    exact replaceGo_of_none fuel (findTok_none_of_noBr "STATS]".data rfl hfin)
  | cons p rest ih =>
    intro fin fuel hfuel hwf
    obtain ⟨seg, b⟩ := p
    have hwf' : (noBr seg = true ∧ noBr (blkContent b) = true) ∧
        wfPieces rest fin = true := by
      simp only [wfPieces, List.all_cons, Bool.and_eq_true] at hwf ⊢
      exact ⟨⟨hwf.1.1.1, hwf.1.1.2⟩, hwf.1.2, hwf.2⟩
    obtain ⟨⟨hseg, hcont⟩, hwfrest⟩ := hwf'
    cases fuel with
    | zero => simp at hfuel
    | succ m =>
      have hfuelm : rest.length ≤ m := by simp at hfuel; omega
      have hfuelm1 : rest.length ≤ m + 1 := by omega
      show replaceGo _ _ _ (m + 1) (seg ++ (renderBlk b ++ renderWith renderBlk rest fin)) = _
      rw [replaceGo_skip _ _ _ (m + 1) seg _
        (skip_nobr "STATS]".data rfl hseg _)]
      cases b with
      | stats c =>
        show seg ++ replaceGo _ _ _ (m + 1)
            (("[STATS]".data ++ (c ++ "[/STATS]".data)) ++ renderWith renderBlk rest fin)
          = _
        rw [show ("[STATS]".data ++ (c ++ "[/STATS]".data)) ++ renderWith renderBlk rest fin
            = "[STATS]".data ++ (c ++ ("[/STATS]".data ++ renderWith renderBlk rest fin)) by
          simp [List.append_assoc]]
        rw [replaceGo_match _ _ _ m c _ "STATS]".data rfl "/STATS]".data rfl
          (skip_nobr "/STATS]".data rfl hcont _)]
        rw [ih fin m hfuelm hwfrest]
        rfl
      | topic c =>
        show seg ++ replaceGo _ _ _ (m + 1)
            (("[TOPIC]".data ++ (c ++ "[/TOPIC]".data)) ++ renderWith renderBlk rest fin)
          = _
        rw [show ("[TOPIC]".data ++ (c ++ "[/TOPIC]".data)) ++ renderWith renderBlk rest fin
            = "[TOPIC]".data ++ (c ++ ("[/TOPIC]".data ++ renderWith renderBlk rest fin)) by
          simp [List.append_assoc]]
        rw [replaceGo_skip _ _ _ (m + 1) ("[TOPIC]".data) _ (skip_so_to _)]
        rw [replaceGo_skip _ _ _ (m + 1) c _ (skip_nobr "STATS]".data rfl hcont _)]
        rw [replaceGo_skip _ _ _ (m + 1) ("[/TOPIC]".data) _ (skip_so_tc _)]
        rw [ih fin (m + 1) hfuelm1 hwfrest]
        simp [blkOut1, renderWith, renderBlk, List.append_assoc]
      | quote c =>
        show seg ++ replaceGo _ _ _ (m + 1)
            (("[QUOTE]".data ++ (c ++ "[/QUOTE]".data)) ++ renderWith renderBlk rest fin)
          = _
        rw [show ("[QUOTE]".data ++ (c ++ "[/QUOTE]".data)) ++ renderWith renderBlk rest fin
            = "[QUOTE]".data ++ (c ++ ("[/QUOTE]".data ++ renderWith renderBlk rest fin)) by
          simp [List.append_assoc]]
        rw [replaceGo_skip _ _ _ (m + 1) ("[QUOTE]".data) _ (skip_so_qo _)]
        rw [replaceGo_skip _ _ _ (m + 1) c _ (skip_nobr "STATS]".data rfl hcont _)]
        rw [replaceGo_skip _ _ _ (m + 1) ("[/QUOTE]".data) _ (skip_so_qc _)]
        rw [ih fin (m + 1) hfuelm1 hwfrest]
        simp [blkOut1, renderWith, renderBlk, List.append_assoc]

/-! `noBr` preservation: every transformation of the pipeline only rearranges
input characters and inserts fixed `'['`-free strings. -/

theorem noBr_append {a b : List Char} :
    noBr (a ++ b) = (noBr a && noBr b) := by
  simp [noBr, List.all_append]

theorem noBr_of_subset {s t : List Char} (hsub : s ⊆ t) (ht : noBr t = true) :
    noBr s = true := by
  simp only [noBr, List.all_eq_true] at ht ⊢
  exact fun c hc => ht c (hsub hc)

theorem noBr_cons {c : Char} {s : List Char} :
    noBr (c :: s) = (!(c == '[') && noBr s) := by
  simp [noBr]

theorem noBr_trimStr {s : List Char} (h : noBr s = true) : noBr (trimStr s) = true := by
  apply noBr_of_subset _ h
  intro c hc
  unfold trimStr at hc
  rw [List.mem_reverse] at hc
  have h1 := (List.dropWhile_sublist (l := (s.dropWhile isWsChar).reverse) isWsChar).subset hc
  rw [List.mem_reverse] at h1
  exact (List.dropWhile_sublist isWsChar).subset h1

theorem noBr_trimL {s : List Char} (h : noBr s = true) : noBr (trimL s) = true :=
  noBr_of_subset ((List.dropWhile_sublist isWsChar).subset) h

theorem noBr_take {n : Nat} {s : List Char} (h : noBr s = true) :
    noBr (s.take n) = true :=
  noBr_of_subset ((List.take_sublist n s).subset) h

theorem noBr_drop {n : Nat} {s : List Char} (h : noBr s = true) :
    noBr (s.drop n) = true :=
  noBr_of_subset ((List.drop_sublist n s).subset) h

theorem noBr_filter {p : Char → Bool} {s : List Char} (h : noBr s = true) :
    noBr (s.filter p) = true :=
  noBr_of_subset ((List.filter_sublist s).subset) h

theorem noBr_takeWhile {p : Char → Bool} {s : List Char} (h : noBr s = true) :
    noBr (s.takeWhile p) = true :=
  noBr_of_subset ((List.takeWhile_sublist p).subset) h

theorem noBr_dropWhile {p : Char → Bool} {s : List Char} (h : noBr s = true) :
    noBr (s.dropWhile p) = true :=
  noBr_of_subset ((List.dropWhile_sublist p).subset) h

theorem noBr_reverse {s : List Char} (h : noBr s = true) : noBr s.reverse = true :=
  noBr_of_subset (fun c hc => List.mem_reverse.mp hc) h

theorem noBr_splitLines : ∀ {s : List Char}, noBr s = true →
    ∀ l ∈ splitLines s, noBr l = true := by
  intro s
  induction s with
  | nil =>
    intro _ l hl
    simp only [splitLines, List.mem_singleton] at hl
    subst hl
    rfl
  | cons c r ih =>
    intro hs l hl
    rw [noBr_cons, Bool.and_eq_true] at hs
    obtain ⟨hc, hr⟩ := hs
    unfold splitLines at hl
    by_cases hnl : c = '\n'
    · rw [if_pos hnl] at hl
      rcases List.mem_cons.mp hl with rfl | h
      · rfl
      · exact ih hr l h
    · rw [if_neg hnl] at hl
      match hsp : splitLines r with
      | [] =>
        rw [hsp] at hl
        rcases List.mem_cons.mp hl with rfl | h
        · rw [noBr_cons, Bool.and_eq_true]
          exact ⟨hc, rfl⟩
        · simp at h
      | lh :: lt =>
        rw [hsp] at hl
        rcases List.mem_cons.mp hl with rfl | h
        · have hlh : noBr lh = true := ih hr lh (by rw [hsp]; simp)
          rw [noBr_cons, Bool.and_eq_true]
          exact ⟨hc, hlh⟩
        · exact ih hr l (by rw [hsp]; exact List.mem_cons_of_mem _ h)

theorem noBr_joinNL : ∀ {L : List (List Char)},
    (∀ l ∈ L, noBr l = true) → noBr (joinNL L) = true := by
  intro L
  induction L with
  | nil => intro _; rfl
  | cons l rest ih =>
    intro h
    cases rest with
    | nil => exact h l (by simp)
    | cons l2 rest2 =>
      show noBr (l ++ '\n' :: joinNL (l2 :: rest2)) = true
      rw [noBr_append, Bool.and_eq_true]
      refine ⟨h l (by simp), ?_⟩
      rw [noBr_cons, Bool.and_eq_true]
      exact ⟨by decide, ih (fun x hx => h x (List.mem_cons_of_mem _ hx))⟩

theorem noBr_flatten : ∀ {L : List (List Char)},
    (∀ l ∈ L, noBr l = true) → noBr L.flatten = true := by
  intro L
  induction L with
  | nil => intro _; rfl
  | cons l rest ih =>
    intro h
    show noBr (l ++ rest.flatten) = true
    rw [noBr_append, Bool.and_eq_true]
    exact ⟨h l (by simp), ih (fun x hx => h x (List.mem_cons_of_mem _ hx))⟩

theorem noBr_statLineHtml {line : List Char} (h : noBr line = true) :
    noBr (statLineHtml line) = true := by
  unfold statLineHtml
  match findTok? ":".data line with
  | none => rfl
  | some k =>
    simp only
    rw [noBr_append, noBr_append, noBr_append, noBr_append]
    simp only [Bool.and_eq_true]
    refine ⟨⟨⟨⟨by decide, noBr_filter (noBr_trimStr (noBr_drop h))⟩, by decide⟩,
      noBr_trimStr (noBr_take h)⟩, by decide⟩

theorem noBr_statsCb {c : List Char} (h : noBr c = true) :
    noBr (statsCb c) = true := by
  unfold statsCb
  rw [noBr_append, noBr_append]
  simp only [Bool.and_eq_true]
  refine ⟨⟨by decide, ?_⟩, by decide⟩
  apply noBr_flatten
  intro l hl
  obtain ⟨l0, hl0, rfl⟩ := List.mem_map.mp hl
  have hl0' := (List.filter_sublist _).subset hl0
  exact noBr_statLineHtml (noBr_splitLines (noBr_trimStr h) l0 hl0')

theorem noBr_topicCb {c : List Char} (h : noBr c = true) :
    noBr (topicCb c) = true := by
  unfold topicCb
  rw [noBr_append, noBr_append]
  simp only [Bool.and_eq_true]
  exact ⟨⟨by decide, h⟩, by decide⟩

theorem qTailAuthor_sub {r2 a : List Char} (h : qTailAuthor r2 = some a) : a ⊆ r2 := by
  unfold qTailAuthor at h
  by_cases hk : (r2.takeWhile isWsChar).length < r2.length
  · rw [if_pos hk] at h
    injection h with h
    subst h
    intro x hx
    have h1 := (List.takeWhile_sublist (l := r2.drop _) _).subset hx
    exact (List.drop_sublist _ _).subset h1
  · rw [if_neg hk] at h
    by_cases hp : (r2.reverse.dropWhile (fun c => c == '\n')).isEmpty = true
    · rw [if_pos hp] at h
      exact absurd h (by simp)
    · rw [if_neg hp] at h
      injection h with h
      subst h
      intro x hx
      rw [List.mem_reverse] at hx
      have h1 := (List.takeWhile_sublist (l := r2.reverse.dropWhile _) _).subset hx
      have h2 := (List.dropWhile_sublist (l := r2.reverse) _).subset h1
      exact List.mem_reverse.mp h2

theorem qTail_sub {r a : List Char} (h : qTail r = some a) : a ⊆ r := by
  unfold qTail at h
  by_cases hd : ((r.dropWhile isWsChar).takeWhile dashCh).length = 0
  · rw [if_pos hd] at h
    exact absurd h (by simp)
  · rw [if_neg hd] at h
    intro x hx
    have h1 := qTailAuthor_sub h hx
    have h2 := (List.drop_sublist _ _).subset h1
    exact (List.dropWhile_sublist _).subset h2

theorem qClose_sub : ∀ {s acc q a : List Char}, qClose acc s = some (q, a) →
    (∀ x ∈ q, x ∈ acc ∨ x ∈ s) ∧ a ⊆ s := by
  intro s
  induction s with
  | nil => intro acc q a h; simp [qClose] at h
  | cons c rest ih =>
    intro acc q a h
    unfold qClose at h
    by_cases h1 : (c == '\n') = true
    · rw [if_pos h1] at h
      exact absurd h (by simp)
    · rw [if_neg h1] at h
      by_cases h2 : (quoteCloseCh c && !acc.isEmpty) = true
      · rw [if_pos h2] at h
        match ht : qTail rest with
        | some author =>
          rw [ht] at h
          injection h with h
          injection h with hq ha
          subst hq
          subst ha
          constructor
          · intro x hx
            rw [List.mem_reverse] at hx
            exact Or.inl hx
          · intro x hx
            exact List.mem_cons_of_mem _ (qTail_sub ht hx)
        | none =>
          rw [ht] at h
          obtain ⟨hq, ha⟩ := ih h
          constructor
          · intro x hx
            rcases hq x hx with hx' | hx'
            · rcases List.mem_cons.mp hx' with rfl | hx''
              · exact Or.inr (by simp)
              · exact Or.inl hx''
            · exact Or.inr (List.mem_cons_of_mem _ hx')
          · exact fun x hx => List.mem_cons_of_mem _ (ha hx)
      · rw [if_neg h2] at h
        obtain ⟨hq, ha⟩ := ih h
        constructor
        · intro x hx
          rcases hq x hx with hx' | hx'
          · rcases List.mem_cons.mp hx' with rfl | hx''
            · exact Or.inr (by simp)
            · exact Or.inl hx''
          · exact Or.inr (List.mem_cons_of_mem _ hx')
        · exact fun x hx => List.mem_cons_of_mem _ (ha hx)

theorem qScan_sub : ∀ {s q a : List Char}, qScan s = some (q, a) → q ⊆ s ∧ a ⊆ s := by
  intro s
  induction s with
  | nil => intro q a h; simp [qScan] at h
  | cons c rest ih =>
    intro q a h
    unfold qScan at h
    by_cases h1 : quoteOpenCh c = true
    · rw [if_pos h1] at h
      match hc : qClose [] rest with
      | some r =>
        rw [hc] at h
        injection h with h
        subst h
        obtain ⟨hq, ha⟩ := qClose_sub hc
        constructor
        · intro x hx
          rcases hq x hx with hx' | hx'
          · simp at hx'
          · exact List.mem_cons_of_mem _ hx'
        · exact fun x hx => List.mem_cons_of_mem _ (ha hx)
      | none =>
        rw [hc] at h
        obtain ⟨hq, ha⟩ := ih h
        exact ⟨fun x hx => List.mem_cons_of_mem _ (hq hx),
          fun x hx => List.mem_cons_of_mem _ (ha hx)⟩
    · rw [if_neg h1] at h
      obtain ⟨hq, ha⟩ := ih h
      exact ⟨fun x hx => List.mem_cons_of_mem _ (hq hx),
        fun x hx => List.mem_cons_of_mem _ (ha hx)⟩

theorem thinkChew_sub {s r : List Char} (h : thinkChew s = some r) : r ⊆ s := by
  unfold thinkChew at h
  by_cases h1 : isPre "**💡".data s = true
  · rw [if_pos h1] at h
    by_cases h2 : isPre "思考".data ((s.drop 3).dropWhile isWsChar) = true
    · rw [if_pos h2] at h
      match hm : ((s.drop 3).dropWhile isWsChar).drop 2 with
      | c :: r2 =>
        rw [hm] at h
        have h' : (if (c == '：' || c == ':') = true then
            (if isPre "**".data r2 = true then some (r2.drop 2) else none)
            else none) = some r := h
        clear h
        rename' h' => h
        by_cases h3 : (c == '：' || c == ':') = true
        · rw [if_pos h3] at h
          by_cases h4 : isPre "**".data r2 = true
          · rw [if_pos h4] at h
            injection h with h
            subst h
            intro x hx
            have hx1 : x ∈ r2 := (List.drop_sublist 2 r2).subset hx
            have hx2 : x ∈ ((s.drop 3).dropWhile isWsChar).drop 2 := by
              rw [hm]; exact List.mem_cons_of_mem _ hx1
            have hx3 := (List.drop_sublist 2 _).subset hx2
            have hx4 := (List.dropWhile_sublist isWsChar).subset hx3
            exact (List.drop_sublist 3 s).subset hx4
          · rw [if_neg h4] at h
            exact absurd h (by simp)
        · rw [if_neg h3] at h
          exact absurd h (by simp)
      | [] =>
        rw [hm] at h
        have h' : (none : Option (List Char)) = some r := h
        exact absurd h' (by simp)
    · rw [if_neg h2] at h
      exact absurd h (by simp)
  · rw [if_neg h1] at h
    exact absurd h (by simp)

theorem thinkAfter_sub : ∀ {s r : List Char}, thinkAfter s = some r → r ⊆ s := by
  intro s
  induction s with
  | nil => intro r h; simp [thinkAfter] at h
  | cons c rest ih =>
    intro r h
    unfold thinkAfter at h
    match hc : thinkChew (c :: rest) with
    | some r0 =>
      rw [hc] at h
      injection h with h
      subst h
      exact thinkChew_sub hc
    | none =>
      rw [hc] at h
      exact fun x hx => List.mem_cons_of_mem _ (ih h hx)

theorem noBr_quoteCb {c : List Char} (h : noBr c = true) :
    noBr (quoteCb c) = true := by
  unfold quoteCb
  match hq : qScan c with
  | some (q, a) =>
    obtain ⟨hsubq, hsuba⟩ := qScan_sub hq
    have hthink : noBr (match thinkAfter c with
        | some r => trimStr r
        | none => []) = true := by
      match ht : thinkAfter c with
      | some r => exact noBr_trimStr (noBr_of_subset (thinkAfter_sub ht) h)
      | none => rfl
    have hq' : noBr (trimStr q) = true := noBr_trimStr (noBr_of_subset hsubq h)
    have ha' : noBr (trimStr a) = true := noBr_trimStr (noBr_of_subset hsuba h)
    simp only
    by_cases he : (match thinkAfter c with
        | some r => trimStr r
        | none => ([] : List Char)).isEmpty = true
    · rw [if_pos he]
      simp only [noBr_append, Bool.and_eq_true]
      exact ⟨by decide, hq', by decide, ha', by decide, rfl, by decide⟩
    · rw [if_neg he]
      simp only [noBr_append, Bool.and_eq_true]
      exact ⟨by decide, hq', by decide, ha', by decide, ⟨by decide, hthink, by decide⟩, by decide⟩
  | none =>
    simp only
    simp only [noBr_append, Bool.and_eq_true]
    exact ⟨by decide, h, by decide⟩

theorem statsCb_length_pos (c : List Char) : 1 ≤ (statsCb c).length := by
  unfold statsCb
  simp

theorem topicCb_length_pos (c : List Char) : 1 ≤ (topicCb c).length := by
  unfold topicCb
  simp

theorem quoteCb_length_pos (c : List Char) : 1 ≤ (quoteCb c).length := by
  unfold quoteCb
  match qScan c with
  | some (q, a) => simp
  | none => simp

theorem blkOut1_length_pos (b : Blk) : 1 ≤ (blkOut1 b).length := by
  cases b with
  | stats c => exact statsCb_length_pos c
  | topic c => simp [blkOut1, renderBlk]
  | quote c => simp [blkOut1, renderBlk]

theorem blkOut2_length_pos (b : Blk) : 1 ≤ (blkOut2 b).length := by
  cases b with
  | stats c => exact statsCb_length_pos c
  | topic c => exact topicCb_length_pos c
  | quote c => simp [blkOut2, renderBlk]

/-- Pass 2: the `[TOPIC]` scan on the output of pass 1. -/
theorem topicGo_pieces : ∀ (ps : List (List Char × Blk)) (fin : List Char) (fuel : Nat),
    ps.length ≤ fuel → wfPieces ps fin = true →
    replaceGo "[TOPIC]".data "[/TOPIC]".data topicCb fuel (renderWith blkOut1 ps fin)
      = renderWith blkOut2 ps fin := by
  intro ps
  induction ps with
  | nil =>
    intro fin fuel _ hwf
    have hfin : noBr fin = true := by
      simp only [wfPieces, List.all_nil, Bool.true_and] at hwf
      exact hwf
    exact replaceGo_of_none fuel (findTok_none_of_noBr "TOPIC]".data rfl hfin)
  | cons p rest ih =>
    intro fin fuel hfuel hwf
    obtain ⟨seg, b⟩ := p
    have hwf' : (noBr seg = true ∧ noBr (blkContent b) = true) ∧
        wfPieces rest fin = true := by
      simp only [wfPieces, List.all_cons, Bool.and_eq_true] at hwf ⊢
      exact ⟨⟨hwf.1.1.1, hwf.1.1.2⟩, hwf.1.2, hwf.2⟩
    obtain ⟨⟨hseg, hcont⟩, hwfrest⟩ := hwf'
    cases fuel with
    | zero => simp at hfuel
    | succ m =>
      have hfuelm : rest.length ≤ m := by simp at hfuel; omega
      have hfuelm1 : rest.length ≤ m + 1 := by omega
      show replaceGo _ _ _ (m + 1) (seg ++ (blkOut1 b ++ renderWith blkOut1 rest fin)) = _
      rw [replaceGo_skip _ _ _ (m + 1) seg _
        (skip_nobr "TOPIC]".data rfl hseg _)]
      cases b with
      | stats c =>
        rw [show (blkOut1 (Blk.stats c) ++ renderWith blkOut1 rest fin)
            = statsCb c ++ renderWith blkOut1 rest fin from rfl]
        rw [replaceGo_skip _ _ _ (m + 1) (statsCb c) _
          (skip_nobr "TOPIC]".data rfl (noBr_statsCb hcont) _)]
        rw [ih fin (m + 1) hfuelm1 hwfrest]
        rfl
      | topic c =>
        show seg ++ replaceGo _ _ _ (m + 1)
            (("[TOPIC]".data ++ (c ++ "[/TOPIC]".data)) ++ renderWith blkOut1 rest fin)
          = _
        rw [show ("[TOPIC]".data ++ (c ++ "[/TOPIC]".data)) ++ renderWith blkOut1 rest fin
            = "[TOPIC]".data ++ (c ++ ("[/TOPIC]".data ++ renderWith blkOut1 rest fin)) by
          simp [List.append_assoc]]
        rw [replaceGo_match _ _ _ m c _ "TOPIC]".data rfl "/TOPIC]".data rfl
          (skip_nobr "/TOPIC]".data rfl hcont _)]
        rw [ih fin m hfuelm hwfrest]
        rfl
      | quote c =>
        show seg ++ replaceGo _ _ _ (m + 1)
            (("[QUOTE]".data ++ (c ++ "[/QUOTE]".data)) ++ renderWith blkOut1 rest fin)
          = _
        rw [show ("[QUOTE]".data ++ (c ++ "[/QUOTE]".data)) ++ renderWith blkOut1 rest fin
            = "[QUOTE]".data ++ (c ++ ("[/QUOTE]".data ++ renderWith blkOut1 rest fin)) by
          simp [List.append_assoc]]
        rw [replaceGo_skip _ _ _ (m + 1) ("[QUOTE]".data) _ (skip_to_qo _)]
        rw [replaceGo_skip _ _ _ (m + 1) c _ (skip_nobr "TOPIC]".data rfl hcont _)]
        rw [replaceGo_skip _ _ _ (m + 1) ("[/QUOTE]".data) _ (skip_to_qc _)]
        rw [ih fin (m + 1) hfuelm1 hwfrest]
        simp [blkOut1, blkOut2, renderWith, renderBlk, List.append_assoc]

/-- Pass 3: the `[QUOTE]` scan on the output of passes 1 and 2. -/
theorem quoteGo_pieces : ∀ (ps : List (List Char × Blk)) (fin : List Char) (fuel : Nat),
    ps.length ≤ fuel → wfPieces ps fin = true →
    replaceGo "[QUOTE]".data "[/QUOTE]".data quoteCb fuel (renderWith blkOut2 ps fin)
      = renderWith blkOut ps fin := by
  intro ps
  induction ps with
  | nil =>
    intro fin fuel _ hwf
    have hfin : noBr fin = true := by
      simp only [wfPieces, List.all_nil, Bool.true_and] at hwf
      exact hwf
    exact replaceGo_of_none fuel (findTok_none_of_noBr "QUOTE]".data rfl hfin)
  | cons p rest ih =>
    intro fin fuel hfuel hwf
    obtain ⟨seg, b⟩ := p
    have hwf' : (noBr seg = true ∧ noBr (blkContent b) = true) ∧
        wfPieces rest fin = true := by
      simp only [wfPieces, List.all_cons, Bool.and_eq_true] at hwf ⊢
      exact ⟨⟨hwf.1.1.1, hwf.1.1.2⟩, hwf.1.2, hwf.2⟩
    obtain ⟨⟨hseg, hcont⟩, hwfrest⟩ := hwf'
    cases fuel with
    | zero => simp at hfuel
    | succ m =>
      have hfuelm : rest.length ≤ m := by simp at hfuel; omega
      have hfuelm1 : rest.length ≤ m + 1 := by omega
      show replaceGo _ _ _ (m + 1) (seg ++ (blkOut2 b ++ renderWith blkOut2 rest fin)) = _
      rw [replaceGo_skip _ _ _ (m + 1) seg _
        (skip_nobr "QUOTE]".data rfl hseg _)]
      cases b with
      | stats c =>
        rw [show (blkOut2 (Blk.stats c) ++ renderWith blkOut2 rest fin)
            = statsCb c ++ renderWith blkOut2 rest fin from rfl]
        rw [replaceGo_skip _ _ _ (m + 1) (statsCb c) _
          (skip_nobr "QUOTE]".data rfl (noBr_statsCb hcont) _)]
        rw [ih fin (m + 1) hfuelm1 hwfrest]
        rfl
      | topic c =>
        rw [show (blkOut2 (Blk.topic c) ++ renderWith blkOut2 rest fin)
            = topicCb c ++ renderWith blkOut2 rest fin from rfl]
        rw [replaceGo_skip _ _ _ (m + 1) (topicCb c) _
          (skip_nobr "QUOTE]".data rfl (noBr_topicCb hcont) _)]
        rw [ih fin (m + 1) hfuelm1 hwfrest]
        rfl
      | quote c =>
        show seg ++ replaceGo _ _ _ (m + 1)
            (("[QUOTE]".data ++ (c ++ "[/QUOTE]".data)) ++ renderWith blkOut2 rest fin)
          = _
        rw [show ("[QUOTE]".data ++ (c ++ "[/QUOTE]".data)) ++ renderWith blkOut2 rest fin
            = "[QUOTE]".data ++ (c ++ ("[/QUOTE]".data ++ renderWith blkOut2 rest fin)) by
          simp [List.append_assoc]]
        rw [replaceGo_match _ _ _ m c _ "QUOTE]".data rfl "/QUOTE]".data rfl
          (skip_nobr "/QUOTE]".data rfl hcont _)]
        rw [ih fin m hfuelm hwfrest]
        rfl

/-- The three tag passes on well-formed markdown: every block replaced by its
converted div, everything else untouched. -/
theorem tagPasses_pieces (ps : List (List Char × Blk)) (fin : List Char)
    (hwf : wfPieces ps fin = true) :
    tagPasses (renderWith renderBlk ps fin) = renderWith blkOut ps fin := by
  unfold tagPasses replaceBlocks
  rw [if_neg (by decide), if_neg (by decide), if_neg (by decide)]
  rw [statsGo_pieces ps fin _
    (renderWith_length_blocks renderBlk renderBlk_length ps fin) hwf]
  rw [topicGo_pieces ps fin _
    (renderWith_length_blocks blkOut1 blkOut1_length_pos ps fin) hwf]
  rw [quoteGo_pieces ps fin _
    (renderWith_length_blocks blkOut2 blkOut2_length_pos ps fin) hwf]

/-! `noBr` preservation through the markdown transformation chain. -/

theorem noBr3 {a b c : List Char} (ha : noBr a = true) (hb : noBr b = true)
    (hc : noBr c = true) : noBr (a ++ b ++ c) = true := by
  simp [noBr_append, ha, hb, hc]

theorem noBr_mapLines {f : List Char → List Char}
    (hf : ∀ l, noBr l = true → noBr (f l) = true) {s : List Char}
    (hs : noBr s = true) : noBr (mapLines f s) = true := by
  unfold mapLines
  apply noBr_joinNL
  intro l hl
  obtain ⟨l0, hl0, rfl⟩ := List.mem_map.mp hl
  exact hf l0 (noBr_splitLines hs l0 hl0)

theorem g2Scan_sub : ∀ {s acc g : List Char}, g2Scan acc s = some g →
    ∀ x ∈ g, x ∈ acc ∨ x ∈ s := by
  intro s
  induction s with
  | nil => intro acc g h; simp [g2Scan] at h
  | cons c rest ih =>
    intro acc g h
    unfold g2Scan at h
    by_cases hok : suffixOkDq rest = true
    · rw [if_pos hok] at h
      injection h with h
      subst h
      intro x hx
      rw [List.mem_reverse] at hx
      rcases List.mem_cons.mp hx with rfl | hx'
      · exact Or.inr (by simp)
      · exact Or.inl hx'
    · rw [if_neg hok] at h
      intro x hx
      rcases ih h x hx with hx' | hx'
      · rcases List.mem_cons.mp hx' with rfl | hx''
        · exact Or.inr (by simp)
        · exact Or.inl hx''
      · exact Or.inr (List.mem_cons_of_mem _ hx')

theorem dialogAttempt_sub {r g : List Char} {k : Nat} (h : dialogAttempt r k = some g) :
    g ⊆ r := by
  have hd : ∀ {x : Char}, x ∈ List.drop k r → x ∈ r :=
    fun hx => (List.drop_sublist k r).subset hx
  unfold dialogAttempt at h
  split at h
  · rename_i r2 heq
    split at h
    · rename_i g2 hg
      injection h with h
      subst h
      intro x hx
      rcases g2Scan_sub hg x hx with hx' | hx'
      · simp at hx'
      · exact hd (by rw [heq]; exact List.mem_cons_of_mem _ hx')
    · intro x hx
      rcases g2Scan_sub h x hx with hx' | hx'
      · simp at hx'
      · exact hd hx'
  · intro x hx
    rcases g2Scan_sub h x hx with hx' | hx'
    · simp at hx'
    · exact hd hx'

theorem dialogTryK_sub : ∀ {k : Nat} {r g : List Char}, dialogTryK r k = some g →
    g ⊆ r := by
  intro k
  induction k with
  | zero =>
    intro r g h
    unfold dialogTryK at h
    match ha : dialogAttempt r 0 with
    | some g2 =>
      rw [ha] at h
      injection h with h
      subst h
      exact dialogAttempt_sub ha
    | none => rw [ha] at h; exact absurd h (by simp)
  | succ k' ih =>
    intro r g h
    unfold dialogTryK at h
    match ha : dialogAttempt r (k' + 1) with
    | some g2 =>
      rw [ha] at h
      injection h with h
      subst h
      exact dialogAttempt_sub ha
    | none =>
      rw [ha] at h
      exact ih h

theorem dialogG1_sub {r g1 r3 : List Char} (h : dialogG1 r = some (g1, r3)) :
    g1 ⊆ r ∧ r3 ⊆ r := by
  unfold dialogG1 at h
  split at h
  · exact absurd h (by simp)
  · rename_i c rest
    split at h
    · exact absurd h (by simp)
    · rename_i k hk
      simp only [Option.some.injEq, Prod.mk.injEq] at h
      obtain ⟨h1, h2⟩ := h
      subst h1
      subst h2
      constructor
      · intro x hx
        rcases List.mem_cons.mp hx with rfl | hx'
        · exact List.mem_cons_self _ _
        · exact List.mem_cons_of_mem _ ((List.take_sublist _ _).subset hx')
      · intro x hx
        exact List.mem_cons_of_mem _ ((List.drop_sublist _ _).subset hx)

theorem noBr_dialogLine {l : List Char} (h : noBr l = true) :
    noBr (dialogLine l) = true := by
  unfold dialogLine
  split
  · rename_i r0
    have hr0 : noBr r0 = true := by
      have h' := h
      rw [noBr_cons, Bool.and_eq_true] at h'
      exact h'.2
    split
    · rename_i r2 heq
      have hr2 : noBr r2 = true := by
        have hdw : noBr (r0.dropWhile isWsChar) = true := noBr_dropWhile hr0
        rw [heq, noBr_cons, noBr_cons] at hdw
        rw [Bool.and_eq_true, Bool.and_eq_true] at hdw
        exact hdw.2.2
      split
      · exact h
      · rename_i g1 r3 hg1
        obtain ⟨hg1s, hr3s⟩ := dialogG1_sub hg1
        split
        · exact h
        · rename_i g2 hg2
          have hng1 : noBr g1 = true := noBr_of_subset hg1s hr2
          have hng2 : noBr g2 = true :=
            noBr_of_subset (fun x hx => hr3s (dialogTryK_sub hg2 hx)) hr2
          simp only [noBr_append, Bool.and_eq_true]
          refine ⟨⟨⟨⟨by decide, hng1⟩, by decide⟩, hng2⟩, by decide⟩
    · exact h
  · exact h

theorem noBr_bqLine {l : List Char} (h : noBr l = true) :
    noBr (bqLine l) = true := by
  unfold bqLine
  split
  · rename_i r
    have hr : noBr r = true := by
      have h' := h
      rw [noBr_cons, Bool.and_eq_true] at h'
      exact h'.2
    split
    · exact h
    · exact noBr3 (by decide) (noBr_drop hr) (by decide)
  · exact h

theorem noBr_h1Line {l : List Char} (h : noBr l = true) :
    noBr (h1Line l) = true := by
  unfold h1Line
  split
  · rename_i r
    simp only [noBr_cons, noBr_append, Bool.and_eq_true] at h ⊢
    exact ⟨⟨by decide, h.2.2⟩, by decide⟩
  · exact h

theorem noBr_h2Line {l : List Char} (h : noBr l = true) :
    noBr (h2Line l) = true := by
  unfold h2Line
  split
  · rename_i r
    simp only [noBr_cons, noBr_append, Bool.and_eq_true] at h ⊢
    exact ⟨⟨by decide, h.2.2.2⟩, by decide⟩
  · exact h

theorem noBr_h3Line {l : List Char} (h : noBr l = true) :
    noBr (h3Line l) = true := by
  unfold h3Line
  split
  · rename_i r
    simp only [noBr_cons, noBr_append, Bool.and_eq_true] at h ⊢
    exact ⟨⟨by decide, h.2.2.2.2⟩, by decide⟩
  · exact h

theorem noBr_liLine {l : List Char} (h : noBr l = true) :
    noBr (liLine l) = true := by
  unfold liLine
  split
  · rename_i r
    simp only [noBr_cons, noBr_append, Bool.and_eq_true] at h ⊢
    exact ⟨⟨by decide, h.2.2⟩, by decide⟩
  · exact h

theorem noBr_numLine {l : List Char} (h : noBr l = true) :
    noBr (numLine l) = true := by
  simp only [numLine]
  split
  · exact h
  · split
    · rename_i r heq
      have hr : noBr r = true := by
        have hd : noBr (l.drop ((l.takeWhile Char.isDigit).length)) = true := noBr_drop h
        rw [heq, noBr_cons, Bool.and_eq_true] at hd
        exact hd.2
      split
      · exact h
      · exact noBr3 (by decide) (noBr_drop hr) (by decide)
    · exact h

theorem strongClose_sub : ∀ {s mid after : List Char},
    strongClose s = some (mid, after) → mid ⊆ s ∧ after ⊆ s := by
  intro s
  induction s with
  | nil => intro mid after h; simp [strongClose] at h
  | cons c r ih =>
    intro mid after h
    unfold strongClose at h
    split at h
    · exact absurd h (by simp)
    · split at h
      · simp only [Option.some.injEq, Prod.mk.injEq] at h
        obtain ⟨h1, h2⟩ := h
        subst h1
        subst h2
        exact ⟨by simp, fun x hx =>
          List.mem_cons_of_mem _ ((List.drop_sublist _ _).subset hx)⟩
      · split at h
        · rename_i mid0 after0 hrec
          simp only [Option.some.injEq, Prod.mk.injEq] at h
          obtain ⟨h1, h2⟩ := h
          subst h1
          subst h2
          obtain ⟨hm, ha⟩ := ih hrec
          exact ⟨fun x hx => by
            rcases List.mem_cons.mp hx with rfl | hx'
            · exact List.mem_cons_self _ _
            · exact List.mem_cons_of_mem _ (hm hx'),
            fun x hx => List.mem_cons_of_mem _ (ha hx)⟩
        · exact absurd h (by simp)

theorem emClose_sub : ∀ {s mid after : List Char},
    emClose s = some (mid, after) → mid ⊆ s ∧ after ⊆ s := by
  intro s
  induction s with
  | nil => intro mid after h; simp [emClose] at h
  | cons c r ih =>
    intro mid after h
    unfold emClose at h
    split at h
    · exact absurd h (by simp)
    · split at h
      · simp only [Option.some.injEq, Prod.mk.injEq] at h
        obtain ⟨h1, h2⟩ := h
        subst h1
        subst h2
        exact ⟨by simp, fun x hx => List.mem_cons_of_mem _ hx⟩
      · split at h
        · rename_i mid0 after0 hrec
          simp only [Option.some.injEq, Prod.mk.injEq] at h
          obtain ⟨h1, h2⟩ := h
          subst h1
          subst h2
          obtain ⟨hm, ha⟩ := ih hrec
          exact ⟨fun x hx => by
            rcases List.mem_cons.mp hx with rfl | hx'
            · exact List.mem_cons_self _ _
            · exact List.mem_cons_of_mem _ (hm hx'),
            fun x hx => List.mem_cons_of_mem _ (ha hx)⟩
        · exact absurd h (by simp)

theorem noBr_strongGo : ∀ {fuel : Nat} {s : List Char}, noBr s = true →
    noBr (strongGo fuel s) = true := by
  intro fuel
  induction fuel with
  | zero => intro s h; exact h
  | succ fuel ih =>
    intro s h
    unfold strongGo
    split
    · exact h
    · rename_i c rest
      have h' := h
      rw [noBr_cons, Bool.and_eq_true] at h'
      split
      · split
        · rename_i mid after hcl
          obtain ⟨hm, ha⟩ := strongClose_sub hcl
          have hmid : noBr mid = true :=
            noBr_of_subset (fun x hx => (List.drop_sublist 1 rest).subset (hm hx)) h'.2
          have hafter : noBr after = true :=
            noBr_of_subset (fun x hx => (List.drop_sublist 1 rest).subset (ha hx)) h'.2
          simp only [noBr_append, Bool.and_eq_true]
          exact ⟨by decide, hmid, by decide, ih hafter⟩
        · rw [noBr_cons, Bool.and_eq_true]
          exact ⟨h'.1, ih h'.2⟩
      · rw [noBr_cons, Bool.and_eq_true]
        exact ⟨h'.1, ih h'.2⟩

theorem noBr_emGo : ∀ {fuel : Nat} {s : List Char}, noBr s = true →
    noBr (emGo fuel s) = true := by
  intro fuel
  induction fuel with
  | zero => intro s h; exact h
  | succ fuel ih =>
    intro s h
    unfold emGo
    split
    · exact h
    · rename_i c rest
      have h' := h
      rw [noBr_cons, Bool.and_eq_true] at h'
      split
      · split
        · rename_i mid after hcl
          obtain ⟨hm, ha⟩ := emClose_sub hcl
          have hmid : noBr mid = true := noBr_of_subset hm h'.2
          have hafter : noBr after = true := noBr_of_subset ha h'.2
          simp only [noBr_append, Bool.and_eq_true]
          exact ⟨by decide, hmid, by decide, ih hafter⟩
        · rw [noBr_cons, Bool.and_eq_true]
          exact ⟨h'.1, ih h'.2⟩
      · rw [noBr_cons, Bool.and_eq_true]
        exact ⟨h'.1, ih h'.2⟩

theorem noBr_brPass {s : List Char} (h : noBr s = true) :
    noBr (brPass s) = true := by
  unfold brPass
  apply noBr_flatten
  intro l hl
  obtain ⟨c, hc, rfl⟩ := List.mem_map.mp hl
  have hch : (!(c == '[')) = true := by
    simp only [noBr, List.all_eq_true] at h
    exact h c hc
  split
  · decide
  · simp [noBr, hch]

theorem noBr_mdPasses {s : List Char} (h : noBr s = true) :
    noBr (mdPasses s) = true := by
  unfold mdPasses strongPass emPass
  exact noBr_brPass (noBr_mapLines (fun _ => noBr_numLine)
    (noBr_mapLines (fun _ => noBr_liLine)
      (noBr_emGo (noBr_strongGo
        (noBr_mapLines (fun _ => noBr_h3Line)
          (noBr_mapLines (fun _ => noBr_h2Line)
            (noBr_mapLines (fun _ => noBr_h1Line)
              (noBr_mapLines (fun _ => noBr_bqLine)
                (noBr_mapLines (fun _ => noBr_dialogLine) h)))))))))

theorem noBr_htmlWrapA : noBr htmlWrapA = true := by decide

set_option maxRecDepth 4000 in
theorem noBr_htmlWrapB : noBr htmlWrapB = true := by
  unfold htmlWrapB
  simp only [noBr_append, Bool.and_eq_true]
  decide

theorem noBr_htmlWrapC : noBr htmlWrapC = true := by decide

theorem noBr_renderOut : ∀ (ps : List (List Char × Blk)) (fin : List Char),
    wfPieces ps fin = true → noBr (renderWith blkOut ps fin) = true := by
  intro ps
  induction ps with
  | nil =>
    intro fin h
    unfold wfPieces at h
    simpa using h
  | cons p rest ih =>
    intro fin h
    obtain ⟨seg, b⟩ := p
    unfold wfPieces at h
    simp only [List.all_cons, Bool.and_eq_true] at h
    obtain ⟨⟨⟨hseg, hcont⟩, hrest⟩, hfin⟩ := h
    unfold renderWith
    simp only [noBr_append, Bool.and_eq_true]
    refine ⟨hseg, ?_, ih fin ?_⟩
    · cases b with
      | stats c => exact noBr_statsCb hcont
      | topic c => exact noBr_topicCb hcont
      | quote c => exact noBr_quoteCb hcont
    · unfold wfPieces
      rw [Bool.and_eq_true]
      exact ⟨hrest, hfin⟩

theorem not_hasPairP_of_noBr {opn cls s : List Char} (hop : '[' ∈ opn)
    (h : noBr s = true) : ¬ HasPairP opn cls s := by
  rintro ⟨u, v, w, rfl⟩
  simp only [noBr, List.all_eq_true] at h
  have hmem : '[' ∈ u ++ opn ++ v ++ cls ++ w := by
    simp only [List.mem_append]
    exact Or.inl (Or.inl (Or.inl (Or.inr hop)))
  have := h '[' hmem
  simp at this

/-- **C2** (amended): for every markdown report assembled from `'['`-free
segments and `[STATS]`/`[TOPIC]`/`[QUOTE]` blocks with `'['`-free contents,
`generateHtmlReport` replaces every block by its rendered form — `statsCb`
(the `<div class="stats-grid">` of stat items), `topicCb` (the
`<div class="topic-card">` wrapper), `quoteCb` (the
`<div class="quote-card">`) — before the markdown-to-HTML passes, and the
returned HTML contains no properly-paired `[STATS]`, `[TOPIC]`, or `[QUOTE]`
tag pair.  (The unrestricted claim is refuted by
`generateHtml_counterexample`: a nested tag token inside a block's content
survives into the output and pairs with a later closing token.) -/
theorem generateHtml_tag_substitution (ps : List (List Char × Blk))
    (fin date : List Char) (hwf : wfPieces ps fin = true)
    (hdate : noBr date = true) :
    generateHtmlReport (renderWith renderBlk ps fin) date =
      htmlWrapA ++ date ++ htmlWrapB ++ mdPasses (renderWith blkOut ps fin) ++ htmlWrapC ∧
    ¬ HasPairP "[STATS]".data "[/STATS]".data
        (generateHtmlReport (renderWith renderBlk ps fin) date) ∧
    ¬ HasPairP "[TOPIC]".data "[/TOPIC]".data
        (generateHtmlReport (renderWith renderBlk ps fin) date) ∧
    ¬ HasPairP "[QUOTE]".data "[/QUOTE]".data
        (generateHtmlReport (renderWith renderBlk ps fin) date) := by
  have heq : generateHtmlReport (renderWith renderBlk ps fin) date =
      htmlWrapA ++ date ++ htmlWrapB ++ mdPasses (renderWith blkOut ps fin) ++ htmlWrapC := by
    unfold generateHtmlReport
    rw [tagPasses_pieces ps fin hwf]
  have hout : noBr (generateHtmlReport (renderWith renderBlk ps fin) date) = true := by
    rw [heq]
    simp only [noBr_append, Bool.and_eq_true]
    exact ⟨⟨⟨⟨noBr_htmlWrapA, hdate⟩, noBr_htmlWrapB⟩,
      noBr_mdPasses (noBr_renderOut ps fin hwf)⟩, noBr_htmlWrapC⟩
  exact ⟨heq, not_hasPairP_of_noBr (by decide) hout,
    not_hasPairP_of_noBr (by decide) hout, not_hasPairP_of_noBr (by decide) hout⟩

/-- Witness: the amended C2 theorem applied to a concrete one-block report. -/
theorem generateHtml_tag_substitution_witness :
    wfPieces [("# T\n".data, Blk.stats "总消息: 3条\n".data)] "\nend".data = true ∧
    noBr "2026-01-16".data = true ∧
    ¬ HasPairP "[STATS]".data "[/STATS]".data
      (generateHtmlReport
        (renderWith renderBlk [("# T\n".data, Blk.stats "总消息: 3条\n".data)] "\nend".data)
        "2026-01-16".data) :=
  ⟨by decide, by decide,
    (generateHtml_tag_substitution [("# T\n".data, Blk.stats "总消息: 3条\n".data)]
      "\nend".data "2026-01-16".data (by decide) (by decide)).2.1⟩

/-- **C7**: if the API call fails, `analyzeWithGemini` performs exactly one
call (no retry) and rethrows the same error, and the daily pipeline performs
no file write (the report output state is unchanged); when some message
survives preprocessing the pipeline's outcome is exactly the rethrown error
after that single call. -/
theorem ai_failure_no_writes (msgs : List ChatMessage) (targetDate : List Char)
    (oracle : Nat → Except ApiErr (List Char)) (e : ApiErr)
    (herr : oracle 0 = .error e) :
    analyzeWithGemini oracle = (.error e, 1) ∧
    (mainDaily msgs targetDate oracle).2.1 = [] ∧
    (mainDaily msgs targetDate oracle).2.2 ≤ 1 ∧
    ((preprocessMessages msgs (some targetDate)).isEmpty = false →
      mainDaily msgs targetDate oracle = (.error e, [], 1)) := by
  have hA : analyzeWithGemini oracle = (.error e, 1) := by
    unfold analyzeWithGemini
    rw [herr]
  have hmain : mainDaily msgs targetDate oracle =
      if (preprocessMessages msgs (some targetDate)).isEmpty then ((.ok (), [], 0) : Except ApiErr Unit × List FsWrite × Nat)
      else (.error e, [], 1) := by
    simp only [mainDaily]
    by_cases hp : (preprocessMessages msgs (some targetDate)).isEmpty
    · rw [if_pos hp, if_pos hp]
    · rw [if_neg hp, if_neg hp, hA]
  refine ⟨hA, ?_, ?_, ?_⟩
  · rw [hmain]
    by_cases hp : (preprocessMessages msgs (some targetDate)).isEmpty
    · rw [if_pos hp]
    · rw [if_neg hp]
  · rw [hmain]
    by_cases hp : (preprocessMessages msgs (some targetDate)).isEmpty
    · rw [if_pos hp]; exact Nat.zero_le 1
    · rw [if_neg hp]
  · intro hne
    rw [hmain, if_neg (by rw [hne]; exact Bool.false_ne_true)]

/-- Witness: the C7 theorem at one kept message and an always-failing API. -/
theorem ai_failure_no_writes_witness :
    (preprocessMessages
      [⟨"文本消息".data, "hi".data, "Alice".data, "2026-01-16 10:00:00".data⟩]
      (some "2026-01-16".data)).isEmpty = false ∧
    analyzeWithGemini (fun _ => .error "boom".data) = (.error "boom".data, 1) ∧
    mainDaily [⟨"文本消息".data, "hi".data, "Alice".data, "2026-01-16 10:00:00".data⟩]
      "2026-01-16".data (fun _ => .error "boom".data) = (.error "boom".data, [], 1) :=
  ⟨by decide,
   (ai_failure_no_writes
      [⟨"文本消息".data, "hi".data, "Alice".data, "2026-01-16 10:00:00".data⟩]
      "2026-01-16".data (fun _ => .error "boom".data) "boom".data rfl).1,
   (ai_failure_no_writes
      [⟨"文本消息".data, "hi".data, "Alice".data, "2026-01-16 10:00:00".data⟩]
      "2026-01-16".data (fun _ => .error "boom".data) "boom".data rfl).2.2.2 (by decide)⟩

/-! ### C8 — gold-quote extraction from daily reports

`parseDailyReport` (update-journal, lines 398–414) iterates
`content.matchAll(/\[QUOTE\]([\s\S]*?)\[\/QUOTE\]/g)`; for each block it takes
the first line of the trimmed content, matches `/「(.+?)」\s*——\s*(.+)$/` on
it, matches `/\*\*💡 思考:\*\*\s*(.+)$/m` on the whole block, and pushes a
record only when the first-line match succeeds. -/

theorem collectGo_none1 {opn cls : List Char} {fuel : Nat} {s : List Char}
    (h : findTok? opn s = none) : collectGo opn cls (fuel + 1) s = [] := by
  unfold collectGo
  split
  · rfl
  · rename_i i heq
    rw [h] at heq
    exact absurd heq (by simp)

theorem collectGo_none2 {opn cls : List Char} {fuel : Nat} {s : List Char}
    {i : Nat} (hi : findTok? opn s = some i)
    (hj : findTok? cls (s.drop (i + opn.length)) = none) :
    collectGo opn cls (fuel + 1) s = [] := by
  unfold collectGo
  split
  · rfl
  · rename_i i' heq
    rw [hi] at heq
    injection heq with h
    subst h
    split
    · rfl
    · rename_i j heq2
      rw [hj] at heq2
      exact absurd heq2 (by simp)

theorem collectGo_succ_eq {opn cls : List Char} {fuel : Nat} {s : List Char}
    {i j : Nat} (hi : findTok? opn s = some i)
    (hj : findTok? cls (s.drop (i + opn.length)) = some j) :
    collectGo opn cls (fuel + 1) s
      = (s.drop (i + opn.length)).take j ::
          collectGo opn cls fuel ((s.drop (i + opn.length)).drop (j + cls.length)) := by
  conv_lhs => unfold collectGo
  split
  · rename_i heq
    rw [hi] at heq
    exact absurd heq (by simp)
  · rename_i i' heq
    rw [hi] at heq
    injection heq with h
    subst h
    split
    · rename_i heq2
      rw [hj] at heq2
      exact absurd heq2 (by simp)
    · rename_i j' heq2
      rw [hj] at heq2
      injection heq2 with h2
      subst h2
      rfl

theorem collectGo_of_none {opn cls : List Char} (fuel : Nat) {s : List Char}
    (h : findTok? opn s = none) : collectGo opn cls fuel s = [] := by
  cases fuel with
  | zero => rfl
  | succ m => exact collectGo_none1 h

theorem collectGo_skip (opn cls : List Char) : ∀ (fuel : Nat) (a t : List Char),
    (∀ i < a.length, isPre opn (List.drop i (a ++ t)) = false) →
    collectGo opn cls fuel (a ++ t) = collectGo opn cls fuel t := by
  intro fuel
  cases fuel with
  | zero => intro a t _; rfl
  | succ m =>
    intro a t h
    have hshift := findTok_shift opn a t h
    cases hf : findTok? opn t with
    | none =>
      rw [hf] at hshift
      simp only [Option.map_none'] at hshift
      rw [collectGo_none1 hshift, collectGo_none1 hf]
    | some j =>
      rw [hf] at hshift
      simp only [Option.map_some'] at hshift
      have hdrop : (a ++ t).drop (j + a.length + opn.length)
          = t.drop (j + opn.length) := by
        rw [show j + a.length + opn.length = a.length + (j + opn.length) by omega]
        exact List.drop_append _
      cases hc : findTok? cls (t.drop (j + opn.length)) with
      | none =>
        rw [collectGo_none2 hshift (by rw [hdrop]; exact hc),
          collectGo_none2 hf hc]
      | some k =>
        rw [collectGo_succ_eq hshift (by rw [hdrop]; exact hc),
          collectGo_succ_eq hf hc]
        rw [hdrop]

theorem collectGo_match (opn cls : List Char) (fuel : Nat) (c t : List Char)
    (o' : List Char) (hopn : opn = '[' :: o') (c' : List Char)
    (hcls : cls = '[' :: c')
    (hc : ∀ i < c.length, isPre cls (List.drop i (c ++ (cls ++ t))) = false) :
    collectGo opn cls (fuel + 1) (opn ++ (c ++ (cls ++ t)))
      = c :: collectGo opn cls fuel t := by
  have hfind : findTok? opn (opn ++ (c ++ (cls ++ t))) = some 0 :=
    findTok_self opn _ '[' o' hopn
  have hdrop0 : (opn ++ (c ++ (cls ++ t))).drop (0 + opn.length) = c ++ (cls ++ t) := by
    rw [Nat.zero_add]
    exact List.drop_left _ _
  have hfindc : findTok? cls (c ++ (cls ++ t)) = some c.length := by
    rw [findTok_shift cls c (cls ++ t) hc]
    rw [findTok_self cls t '[' c' hcls]
    simp
  have htakec : (c ++ (cls ++ t)).take c.length = c := by
    rw [show c.length = c.length + 0 by omega, List.take_append]
    simp
  have hdropc : (c ++ (cls ++ t)).drop (c.length + cls.length) = t := by
    rw [List.drop_append]
    exact List.drop_left _ _
  rw [collectGo_succ_eq hfind (by rw [hdrop0]; exact hfindc)]
  rw [hdrop0, htakec, hdropc]

theorem collectQuotes_go :
    ∀ (ps : List (List Char × Blk)) (fin : List Char) (fuel : Nat),
    ps.length ≤ fuel → wfPieces ps fin = true →
    collectGo "[QUOTE]".data "[/QUOTE]".data fuel (renderWith renderBlk ps fin)
      = quotesOf ps := by
  intro ps
  induction ps with
  | nil =>
    intro fin fuel _ hwf
    have hfin : noBr fin = true := by
      simp only [wfPieces, List.all_nil, Bool.true_and] at hwf
      exact hwf
    exact collectGo_of_none fuel (findTok_none_of_noBr "QUOTE]".data rfl hfin)
  | cons p rest ih =>
    intro fin fuel hfuel hwf
    obtain ⟨seg, b⟩ := p
    have hwf' : (noBr seg = true ∧ noBr (blkContent b) = true) ∧
        wfPieces rest fin = true := by
      simp only [wfPieces, List.all_cons, Bool.and_eq_true] at hwf ⊢
      exact ⟨⟨hwf.1.1.1, hwf.1.1.2⟩, hwf.1.2, hwf.2⟩
    obtain ⟨⟨hseg, hcont⟩, hwfrest⟩ := hwf'
    cases fuel with
    | zero => simp at hfuel
    | succ m =>
      have hfuelm : rest.length ≤ m := by simp at hfuel; omega
      have hfuelm1 : rest.length ≤ m + 1 := by omega
      cases b with
      | quote c =>
        show collectGo _ _ (m + 1)
            (seg ++ (renderBlk (.quote c) ++ renderWith renderBlk rest fin)) = _
        rw [collectGo_skip _ _ (m + 1) seg _ (skip_nobr "QUOTE]".data rfl hseg _)]
        show collectGo _ _ (m + 1)
            (("[QUOTE]".data ++ (c ++ "[/QUOTE]".data)) ++ renderWith renderBlk rest fin) = _
        rw [show ("[QUOTE]".data ++ (c ++ "[/QUOTE]".data)) ++ renderWith renderBlk rest fin
            = "[QUOTE]".data ++ (c ++ ("[/QUOTE]".data ++ renderWith renderBlk rest fin)) by
          simp [List.append_assoc]]
        rw [collectGo_match _ _ m c _ "QUOTE]".data rfl "/QUOTE]".data rfl
          (skip_nobr "/QUOTE]".data rfl hcont _)]
        rw [ih fin m hfuelm hwfrest]
        rfl
      | stats c =>
        show collectGo _ _ (m + 1)
            (seg ++ (renderBlk (.stats c) ++ renderWith renderBlk rest fin)) = _
        rw [collectGo_skip _ _ (m + 1) seg _ (skip_nobr "QUOTE]".data rfl hseg _)]
        show collectGo _ _ (m + 1)
            (("[STATS]".data ++ (c ++ "[/STATS]".data)) ++ renderWith renderBlk rest fin) = _
        rw [show ("[STATS]".data ++ (c ++ "[/STATS]".data)) ++ renderWith renderBlk rest fin
            = "[STATS]".data ++ (c ++ ("[/STATS]".data ++ renderWith renderBlk rest fin)) by
          simp [List.append_assoc]]
        rw [collectGo_skip _ _ (m + 1) ("[STATS]".data) _ (skip_q_so _)]
        rw [collectGo_skip _ _ (m + 1) c _ (skip_nobr "QUOTE]".data rfl hcont _)]
        rw [collectGo_skip _ _ (m + 1) ("[/STATS]".data) _ (skip_q_sc _)]
        rw [ih fin (m + 1) hfuelm1 hwfrest]
        rfl
      | topic c =>
        show collectGo _ _ (m + 1)
            (seg ++ (renderBlk (.topic c) ++ renderWith renderBlk rest fin)) = _
        rw [collectGo_skip _ _ (m + 1) seg _ (skip_nobr "QUOTE]".data rfl hseg _)]
        show collectGo _ _ (m + 1)
            (("[TOPIC]".data ++ (c ++ "[/TOPIC]".data)) ++ renderWith renderBlk rest fin) = _
        rw [show ("[TOPIC]".data ++ (c ++ "[/TOPIC]".data)) ++ renderWith renderBlk rest fin
            = "[TOPIC]".data ++ (c ++ ("[/TOPIC]".data ++ renderWith renderBlk rest fin)) by
          simp [List.append_assoc]]
        rw [collectGo_skip _ _ (m + 1) ("[TOPIC]".data) _ (skip_q_to _)]
        rw [collectGo_skip _ _ (m + 1) c _ (skip_nobr "QUOTE]".data rfl hcont _)]
        rw [collectGo_skip _ _ (m + 1) ("[/TOPIC]".data) _ (skip_q_tc _)]
        rw [ih fin (m + 1) hfuelm1 hwfrest]
        rfl

theorem collectQuotes_pieces (ps : List (List Char × Blk)) (fin : List Char)
    (hwf : wfPieces ps fin = true) :
    collectBlocks "[QUOTE]".data "[/QUOTE]".data (renderWith renderBlk ps fin)
      = quotesOf ps := by
  unfold collectBlocks
  rw [if_neg (by decide)]
  exact collectQuotes_go ps fin _
    (renderWith_length_blocks renderBlk renderBlk_length ps fin) hwf

/-- **C8**: on a report assembled from `'['`-free segments and
`[STATS]`/`[TOPIC]`/`[QUOTE]` blocks with `'['`-free contents,
`parseDailyReport` extracts exactly one gold-quote record per `[QUOTE]` block
whose trimmed content's first line matches `「quote」 —— author` — in order
of appearance, with the trimmed quote, the trimmed author, and the
`**💡 思考:**` line's trimmed text (empty when that marker is absent) — and a
`[QUOTE]` block whose first line does not match, as well as every other block
kind, contributes no record. -/
theorem gold_quote_extraction (ps : List (List Char × Blk)) (fin : List Char)
    (hwf : wfPieces ps fin = true) :
    parseGoldQuotes (renderWith renderBlk ps fin)
      = (quotesOf ps).filterMap quoteRecOf ∧
    (∀ c, jQuoteLine ((splitLines (trimStr c)).headD []) = none →
      quoteRecOf c = none) ∧
    (∀ c q a, jQuoteLine ((splitLines (trimStr c)).headD []) = some (q, a) →
      quoteRecOf c = some ⟨trimStr q, trimStr a, thinkOf c⟩) := by
  refine ⟨?_, ?_, ?_⟩
  · unfold parseGoldQuotes
    rw [collectQuotes_pieces ps fin hwf]
  · intro c hnone
    unfold quoteRecOf
    rw [hnone]
  · intro c q a hsome
    unfold quoteRecOf
    rw [hsome]

set_option maxRecDepth 8000 in
/-- Witness: the C8 theorem at a mixed four-block report — a `[STATS]` block,
a `[TOPIC]` block, a matching `[QUOTE]` block and a `[QUOTE]` block whose
first line does not match — with the resulting record list evaluated. -/
theorem gold_quote_extraction_witness :
    wfPieces
      [("intro\n".data, Blk.stats "\n总消息: 3条\n".data),
       ("\n".data, Blk.topic "\n### 1. 话题 (约50%)\n".data),
       ("\nmid\n".data, Blk.quote "\n「坚持」 —— 张三\n\n**💡 思考:** 复利\n".data),
       ("\n".data, Blk.quote "\nno gold here\n".data)] "\nend".data = true ∧
    parseGoldQuotes
      (renderWith renderBlk
        [("intro\n".data, Blk.stats "\n总消息: 3条\n".data),
         ("\n".data, Blk.topic "\n### 1. 话题 (约50%)\n".data),
         ("\nmid\n".data, Blk.quote "\n「坚持」 —— 张三\n\n**💡 思考:** 复利\n".data),
         ("\n".data, Blk.quote "\nno gold here\n".data)] "\nend".data)
      = (quotesOf
          [("intro\n".data, Blk.stats "\n总消息: 3条\n".data),
           ("\n".data, Blk.topic "\n### 1. 话题 (约50%)\n".data),
           ("\nmid\n".data, Blk.quote "\n「坚持」 —— 张三\n\n**💡 思考:** 复利\n".data),
           ("\n".data, Blk.quote "\nno gold here\n".data)]).filterMap quoteRecOf ∧
    parseGoldQuotes
      (renderWith renderBlk
        [("intro\n".data, Blk.stats "\n总消息: 3条\n".data),
         ("\n".data, Blk.topic "\n### 1. 话题 (约50%)\n".data),
         ("\nmid\n".data, Blk.quote "\n「坚持」 —— 张三\n\n**💡 思考:** 复利\n".data),
         ("\n".data, Blk.quote "\nno gold here\n".data)] "\nend".data)
      = [⟨"坚持".data, "张三".data, "复利".data⟩] :=
  ⟨by decide,
   (gold_quote_extraction
      [("intro\n".data, Blk.stats "\n总消息: 3条\n".data),
       ("\n".data, Blk.topic "\n### 1. 话题 (约50%)\n".data),
       ("\nmid\n".data, Blk.quote "\n「坚持」 —— 张三\n\n**💡 思考:** 复利\n".data),
       ("\n".data, Blk.quote "\nno gold here\n".data)] "\nend".data
      (by decide)).1,
   by decide⟩

theorem utf16Len_take : ∀ (s : List Char) (n : Nat),
    utf16Len (utf16Take n s) ≤ n := by
  intro s
  induction s with
  | nil => intro n; simp [utf16Take, utf16Len]
  | cons c rest ih =>
    intro n
    unfold utf16Take
    split
    · rename_i h
      have hrec := ih (n - utf16Width c)
      simp only [utf16Len, List.map_cons, List.sum_cons] at hrec ⊢
      omega
    · simp [utf16Len]

theorem utf16Len_append (a b : List Char) :
    utf16Len (a ++ b) = utf16Len a + utf16Len b := by
  simp [utf16Len]

/-- **C9**: with at least one gold quote the summary is
`"<first quote> —— <first author>"`, replaced by its first 48 UTF-16 units
plus `"..."` exactly when that string is longer than 50 units — so the
summary never exceeds 51 units; with no gold quote it is the trimmed first
`[TOPIC]` title when the topic regex matches, and otherwise the fixed
fallback string. -/
theorem summary_truncation (content : List Char) (gq : GoldQuote)
    (rest : List GoldQuote) (hpq : parseGoldQuotes content = gq :: rest) :
    summaryOf (parseGoldQuotes content) content
      = (if 50 < utf16Len (gq.quote ++ " —— ".data ++ gq.author)
         then utf16Take 48 (gq.quote ++ " —— ".data ++ gq.author) ++ "...".data
         else gq.quote ++ " —— ".data ++ gq.author) ∧
    utf16Len (summaryOf (parseGoldQuotes content) content) ≤ 51 ∧
    (∀ c2 : List Char, parseGoldQuotes c2 = [] →
      summaryOf (parseGoldQuotes c2) c2
        = (match topicTitle c2 with
           | some g => trimStr g
           | none => defaultSummary)) := by
  rw [hpq]
  refine ⟨rfl, ?_, ?_⟩
  · show utf16Len (if 50 < utf16Len (gq.quote ++ " —— ".data ++ gq.author)
        then utf16Take 48 (gq.quote ++ " —— ".data ++ gq.author) ++ "...".data
        else gq.quote ++ " —— ".data ++ gq.author) ≤ 51
    split
    · rw [utf16Len_append]
      have h1 := utf16Len_take (gq.quote ++ " —— ".data ++ gq.author) 48
      have h2 : utf16Len "...".data = 3 := by decide
      omega
    · rename_i h
      omega
  · intro c2 h2
    rw [h2]
    rfl

set_option maxRecDepth 4000 in
/-- Witness: the C9 theorem at a concrete one-quote report. -/
theorem summary_truncation_witness :
    parseGoldQuotes "[QUOTE]\n「坚持」 —— 张三\n[/QUOTE]".data
      = [⟨"坚持".data, "张三".data, []⟩] ∧
    utf16Len (summaryOf
      (parseGoldQuotes "[QUOTE]\n「坚持」 —— 张三\n[/QUOTE]".data)
      "[QUOTE]\n「坚持」 —— 张三\n[/QUOTE]".data) ≤ 51 :=
  ⟨by decide,
   (summary_truncation "[QUOTE]\n「坚持」 —— 张三\n[/QUOTE]".data
      ⟨"坚持".data, "张三".data, []⟩ [] (by decide)).2.1⟩
